import Mathlib

/-! SolveSpace Unix utilities: temporary arena, diagnostics, path guards.

A shallow embedding of `src/platform/unixutil.cpp`.

* Pointers are natural numbers, `NULL` is `0`.
* The heap of the temporary arena is a finite list of its live allocations keyed
  by base address.  Each is seen as an `AllocTempHeader` (`prev`, `next`)
  followed by the payload bytes.
* Every memory access is checked: an access through `NULL`, through a pointer to
  no live allocation, or beyond the allocation's size stops the run with
  `Stop.undefined`.  A call of `assert_failure` stops it with `Stop.aborted`.
* `malloc` is an external function: what it returns for one call (the pointer,
  `NULL` on failure, and the indeterminate contents of the storage) is an
  argument of the operation that calls it.
-/

namespace SolveSpace

/-! ## Machine model -/

abbrev Ptr := Nat

/-- The null pointer. -/
def NULL : Ptr := 0

/-- Size of a pointer in bytes (LP64). -/
def ptrBytes : Nat := 8

/-- The value of `sizeof(AllocTempHeader)`: two pointers. -/
def sizeofAllocTempHeader : Nat := 2 * ptrBytes

/-- Number of values of `size_t`; arithmetic on `size_t` is modulo this. -/
def SIZE_MOD : Nat := 2 ^ (8 * ptrBytes)

/-- The link header `struct _AllocTempHeader` at the start of every arena block. -/
structure AllocTempHeader where
  prev : Ptr
  next : Ptr
deriving DecidableEq, Repr

/-- One live allocation: an `AllocTempHeader` followed by payload bytes.  `cap` is
the number of bytes that were requested from `malloc`. -/
structure Block extends AllocTempHeader where
  cap : Nat
  payload : List Nat
deriving DecidableEq, Repr

/-- Kinds of undefined behaviour the model detects. -/
inductive UB where
  | nullDeref
  | wildPointer
  | outOfBounds
  | badFree
deriving DecidableEq, Repr

/-- Ways a run can end without returning to its caller. -/
inductive Stop where
  | aborted (stderr : List String)
  | undefined (why : UB)
  | diverged
deriving DecidableEq, Repr

/-- Process state: the global `Head`, the live allocations obtained by the arena,
and the log of pointers passed to `free`, oldest first. -/
structure Arena where
  Head : Ptr
  heap : List (Ptr × Block)
  freed : List Ptr
deriving DecidableEq, Repr

/-- The state at program start: `static AllocTempHeader *Head = NULL;`. -/
def Arena.init : Arena := { Head := NULL, heap := [], freed := [] }

/-- The live allocation with base address `p`, if any. -/
def look (p : Ptr) : List (Ptr × Block) → Option Block
  | [] => none
  | (q, b) :: t => if q = p then some b else look p t

/-- Overwrite the contents of the allocation at `p`. -/
def put (p : Ptr) (b : Block) : List (Ptr × Block) → List (Ptr × Block)
  | [] => []
  | (q, c) :: t => if q = p then (q, b) :: put p b t else (q, c) :: put p b t

/-- Remove the allocation at `p`. -/
def unmap (p : Ptr) : List (Ptr × Block) → List (Ptr × Block)
  | [] => []
  | (q, c) :: t => if q = p then unmap p t else (q, c) :: unmap p t

/-- What one call of `malloc` hands back: the pointer (`NULL` on failure) and the
indeterminate contents of the new storage. -/
structure Storage where
  ptr : Ptr
  prev : Ptr
  next : Ptr
  junk : Nat → Nat

/-- The call `malloc(size)` with outcome `m`. -/
def malloc (size : Nat) (m : Storage) (s : Arena) : Ptr × Arena :=
  if m.ptr = NULL then (NULL, s)
  else (m.ptr,
    { s with heap := (m.ptr, { cap := size, prev := m.prev, next := m.next,
                               payload := (List.range (size - sizeofAllocTempHeader)).map m.junk })
                      :: s.heap })

/-- Access to the first `bytes` bytes of the object `h` points to. -/
def Arena.deref (s : Arena) (h : Ptr) (bytes : Nat) : Except Stop Block :=
  if h = NULL then .error (.undefined .nullDeref)
  else match look h s.heap with
    | none => .error (.undefined .wildPointer)
    | some b => if bytes ≤ b.cap then .ok b else .error (.undefined .outOfBounds)

/-- Read `h->prev`. -/
def Arena.loadPrev (s : Arena) (h : Ptr) : Except Stop Ptr :=
  (s.deref h ptrBytes).map (fun b => b.prev)

/-- Read `h->next`. -/
def Arena.loadNext (s : Arena) (h : Ptr) : Except Stop Ptr :=
  (s.deref h (2 * ptrBytes)).map (fun b => b.next)

/-- Write `h->prev = v`. -/
def Arena.storePrev (s : Arena) (h v : Ptr) : Except Stop Arena :=
  (s.deref h ptrBytes).map (fun b => { s with heap := put h { b with prev := v } s.heap })

/-- Write `h->next = v`. -/
def Arena.storeNext (s : Arena) (h v : Ptr) : Except Stop Arena :=
  (s.deref h (2 * ptrBytes)).map (fun b => { s with heap := put h { b with next := v } s.heap })

/-- The call `memset(&h[1], 0, n)`. -/
def Arena.memset (s : Arena) (h : Ptr) (n : Nat) : Except Stop Arena :=
  (s.deref h (sizeofAllocTempHeader + n)).map (fun b =>
    { s with heap := put h { b with payload := List.replicate n 0 ++ b.payload.drop n } s.heap })

/-- The call `free(h)`. -/
def Arena.free (s : Arena) (h : Ptr) : Except Stop Arena :=
  if h = NULL then .ok s
  else match look h s.heap with
    | none => .error (.undefined .badFree)
    | some _ => .ok { s with heap := unmap h s.heap, freed := s.freed ++ [h] }

/-! ## The temporary arena -/

/-- Source function `void *AllocTemporary(size_t n)`, with `m` the outcome of its `malloc` call. -/
def AllocTemporary (n : Nat) (m : Storage) (s : Arena) : Except Stop (Ptr × Arena) := do
  let (h, s) := malloc ((n + sizeofAllocTempHeader) % SIZE_MOD) m s
  let s ← s.storePrev h NULL
  let s ← s.storeNext h s.Head
  let s ← if s.Head ≠ NULL then s.storePrev s.Head h else pure s
  let s := { s with Head := h }
  let s ← s.memset h n
  pure (h + sizeofAllocTempHeader, s)

/-- Source function `void FreeTemporary(void *p)`. -/
def FreeTemporary (p : Ptr) (s : Arena) : Except Stop Arena := do
  let h := p - sizeofAllocTempHeader
  let hprev ← s.loadPrev h
  let s ← if hprev ≠ NULL then do
            let hnext ← s.loadNext h
            s.storeNext hprev hnext
          else do
            let hnext ← s.loadNext h
            pure { s with Head := hnext }
  let hnext ← s.loadNext h
  let s ← if hnext ≠ NULL then do
            let hprev ← s.loadPrev h
            s.storePrev hnext hprev
          else pure s
  s.free h

/-- The loop `while(h) { f = h; h = h->next; free(f); }` of `FreeAllTemporary`,
run for at most `fuel` tests of its condition. -/
def freeAllLoop : Nat → Ptr → Arena → Except Stop Arena
  | 0, _, _ => .error .diverged
  | fuel + 1, h, s =>
    if h ≠ NULL then do
      let f := h
      let h ← s.loadNext h
      let s ← s.free f
      freeAllLoop fuel h s
    else pure s

/-- Source function `void FreeAllTemporary(void)`.  Every iteration of the loop frees a live
allocation, so one more test than there are live allocations always suffices. -/
def FreeAllTemporary (s : Arena) : Except Stop Arena := do
  let h := s.Head
  let s ← freeAllLoop (s.heap.length + 1) h s
  pure { s with Head := NULL }

/-- The pointers met from `p` following `next`, up to `NULL` or a pointer to no
live allocation; at most `fuel` of them. -/
def walk (heap : List (Ptr × Block)) : Nat → Ptr → List Ptr
  | 0, _ => []
  | fuel + 1, p =>
    if p = NULL then []
    else match look p heap with
      | none => []
      | some b => p :: walk heap fuel b.next

/-- The live-block list read from `Head` to its tail. -/
def liveList (s : Arena) : List Ptr := walk s.heap s.heap.length s.Head

/-- The predicate `Chain heap prev p L`: starting at `p` and following `next` one meets exactly
the pointers of `L`, each to a live allocation with room for the link header, and
then `NULL`; the `prev` field of each is its predecessor (`prev` for the first). -/
def Chain (heap : List (Ptr × Block)) : Ptr → Ptr → List Ptr → Prop
  | _, p, [] => p = NULL
  | prev, p, a :: L =>
    p = a ∧ a ≠ NULL ∧
      match look a heap with
      | none => False
      | some b => sizeofAllocTempHeader ≤ b.cap ∧ b.prev = prev ∧ Chain heap a b.next L

instance Chain.decide (heap : List (Ptr × Block)) :
    (prev p : Ptr) → (L : List Ptr) → Decidable (Chain heap prev p L)
  | _, p, [] => inferInstanceAs (Decidable (p = NULL))
  | prev, p, a :: L =>
    match hl : look a heap with
    | none => isFalse (by simp [Chain, hl])
    | some b =>
      have := Chain.decide heap a b.next L
      decidable_of_iff (p = a ∧ a ≠ NULL ∧ sizeofAllocTempHeader ≤ b.cap ∧ b.prev = prev ∧
        Chain heap a b.next L) (by simp [Chain, hl])

/-- The arena is well formed with live list `L` (head to tail). -/
def WFL (s : Arena) (L : List Ptr) : Prop :=
  Chain s.heap NULL s.Head L ∧ L.Nodup ∧ ∀ e ∈ s.heap, e.1 ∈ L

/-- The arena is well formed: the blocks met from `Head` form a finite list that
ends in `NULL`, has no repetition, has consistent `prev` links, and holds every
live allocation. -/
def WF (s : Arena) : Prop := WFL s (liveList s)

instance (s : Arena) (L : List Ptr) : Decidable (WFL s L) := by
  unfold WFL; infer_instance

instance (s : Arena) : Decidable (WF s) := by
  unfold WF; infer_instance

/-- The request `n` bytes plus header is representable in `size_t`. -/
def Fits (n : Nat) : Prop := n + sizeofAllocTempHeader < SIZE_MOD

instance (n : Nat) : Decidable (Fits n) := by
  unfold Fits; infer_instance

/-- The outcome `m` of `malloc` is a success: a non-null pointer to storage
disjoint from every live allocation. -/
def Fresh (m : Storage) (s : Arena) : Prop := m.ptr ≠ NULL ∧ look m.ptr s.heap = none

instance (m : Storage) (s : Arena) : Decidable (Fresh m s) := by
  unfold Fresh; infer_instance

/-- The block that `AllocTemporary n` leaves at the head of the list. -/
def newBlock (n : Nat) (s : Arena) : Block :=
  { cap := n + sizeofAllocTempHeader, prev := NULL, next := s.Head,
    payload := List.replicate n 0 }

/-- A run of `AllocTemporary` calls, one per request (size, outcome of `malloc`);
returns the handles in call order. -/
def allocMany : List (Nat × Storage) → Arena → Except Stop (List Ptr × Arena)
  | [], s => pure ([], s)
  | (n, m) :: rest, s => do
    let (p, s) ← AllocTemporary n m s
    let (ps, s) ← allocMany rest s
    pure (p :: ps, s)

/-- A run of `FreeTemporary` calls, one per handle, in list order. -/
def freeMany : List Ptr → Arena → Except Stop Arena
  | [], s => pure s
  | p :: ps, s => do
    let s ← FreeTemporary p s
    freeMany ps s

/-- Every `malloc` of a run of allocations succeeds: each request is representable,
each returned pointer is non-null, not a live allocation of `s`, and different
from the pointers returned earlier in the run. -/
def MallocsSucceed (reqs : List (Nat × Storage)) (s : Arena) : Prop :=
  (∀ r ∈ reqs, Fits r.1 ∧ Fresh r.2 s) ∧ (reqs.map (fun r => r.2.ptr)).Nodup

instance (reqs : List (Nat × Storage)) (s : Arena) : Decidable (MallocsSucceed reqs s) := by
  unfold MallocsSucceed; infer_instance

/-- The block header address of a handle: `(AllocTempHeader *)p - 1`. -/
def headerOf (p : Ptr) : Ptr := p - sizeofAllocTempHeader

/-- The handle of a block: `&h[1]`. -/
def handleOf (h : Ptr) : Ptr := h + sizeofAllocTempHeader

/-- A successful outcome of `malloc` at address `p`, the storage holding non-zero
bytes and stray link words. -/
def store (p : Ptr) : Storage := { ptr := p, prev := 7, next := 9, junk := fun i => i + 1 }

/-- The requests of the scenario "allocate three blocks of sizes 8, 0, 64". -/
def scenario : List (Nat × Storage) := [(8, store 4096), (0, store 8192), (64, store 12288)]

/-- The bytes of the payload region that a handle denotes, if its block is live. -/
def payloadAt (s : Arena) (handle : Ptr) : Option (List Nat) :=
  (look (headerOf handle) s.heap).map (fun b => b.payload)

/-- One arena operation of a client: an allocation (with the outcome of its
`malloc`) or a release. -/
inductive Op where
  | alloc (n : Nat) (m : Storage)
  | free (p : Ptr)

/-- Run one operation, dropping the handle an allocation returns. -/
def step : Op → Arena → Except Stop Arena
  | .alloc n m, s => (AllocTemporary n m s).map (fun r => r.2)
  | .free p, s => FreeTemporary p s

/-- Run operations in order. -/
def run : List Op → Arena → Except Stop Arena
  | [], s => pure s
  | op :: ops, s => do
    let s ← step op s
    run ops s

/-- The operation is one that a holder of block `b` must expect in state `s`: an
allocation whose `malloc` succeeds, or a release of the handle of a live block other
than `b`. -/
def Allowed (b : Ptr) : Op → Arena → Prop
  | .alloc n m, s => Fits n ∧ Fresh m s
  | .free p, s => headerOf p ∈ liveList s ∧ headerOf p ≠ b ∧ p = handleOf (headerOf p)

instance (b : Ptr) (op : Op) (s : Arena) : Decidable (Allowed b op s) := by
  cases op <;> unfold Allowed <;> infer_instance

/-- Every operation of the run is allowed in the state it is run in. -/
def AllowedRun (b : Ptr) : List Op → Arena → Prop
  | [], _ => True
  | op :: ops, s =>
    Allowed b op s ∧
      match step op s with
      | .ok s2 => AllowedRun b ops s2
      | .error _ => False

instance AllowedRun.decide (b : Ptr) : (ops : List Op) → (s : Arena) → Decidable (AllowedRun b ops s)
  | [], _ => isTrue trivial
  | op :: ops, s =>
    match hs : step op s with
    | .ok s2 =>
      have := AllowedRun.decide b ops s2
      decidable_of_iff (Allowed b op s ∧ AllowedRun b ops s2) (by simp [AllowedRun, hs])
    | .error _ => isFalse (by simp [AllowedRun, hs])

/-- The operations of the scenario after the size-8 block: allocate sizes 0 and 64,
then release the size-0 block. -/
def laterOps : List Op := [.alloc 0 (store 8192), .alloc 64 (store 12288), .free 8208]

/-! ## Diagnostics and path utilities -/

/-- A `std::string` or C character array: its bytes. -/
abbrev Bytes := List Nat

/-- What the process environment supplies to these functions. -/
structure Platform where
  /-- The value of `__FILE__` in this translation unit. -/
  file : String
  /-- The value of `__LINE__` at the assertion inside the named function. -/
  lineOf : String → Nat
  /-- Return addresses of the active calls, innermost first. -/
  stack : List Ptr
  /-- The symbol `backtrace_symbols` gives each address; `none` when it returns `NULL`. -/
  symbols : Option (Ptr → String)
  /-- How `fprintf` renders `%p`. -/
  showPtr : Ptr → String
  /-- The C library's `fopen`: the `FILE *` it returns, `NULL` on failure. -/
  fopen : Bytes → Bytes → Ptr
  /-- The C library's `remove`: its return value. -/
  remove : Bytes → Int

/-- Capacity of the array `ptrs` in `assert_failure`. -/
def maxFrames : Nat := 1024

/-- The conversion `%2zu`: decimal, padded on the left to two characters. -/
def fmt2zu (i : Nat) : String :=
  if i < 10 then " " ++ toString i else toString i

/-- The single-quote character. -/
def quote : String := String.singleton (Char.ofNat 39)

/-- Source function `void assert_failure(file, line, function, condition, message)`: what it writes
to `stderr` before `abort()`; it never returns. -/
def assert_failure (P : Platform) (file : String) (line : Nat)
    (function condition message : String) : Stop :=
  let l1 := "File " ++ file ++ ", line " ++ toString line ++ ", function " ++ function ++ ":\n"
  let l2 := "Assertion " ++ quote ++ message ++ quote ++ " failed: ((" ++ condition ++
    ") == false).\n"
  let ptrs := P.stack.take maxFrames
  let frames :=
    match P.symbols with
    | some syms => ptrs.enum.map (fun ip => fmt2zu ip.1 ++ ": " ++ syms ip.2 ++ "\n")
    | none => ptrs.enum.map (fun ip => fmt2zu ip.1 ++ ": " ++ P.showPtr ip.2 ++ "\n")
  .aborted ([l1, l2, "Backtrace:\n"] ++ frames)

/-- Modelled from the spec: the assertion macro `ssassert(condition, message)` of
`solvespace.h`, which is not among the sources.  The spec describes it as an
assertion macro layered on the fatal reporter: when the condition is false it calls
`assert_failure` with the call site, the text of the condition and the message. -/
def ssassert (P : Platform) (function : String) (cond : Bool) (condition message : String) :
    Except Stop Unit :=
  if cond then .ok () else .error (assert_failure P P.file (P.lineOf function) function
    condition message)

/-- The buffer `s.c_str()`: the bytes of the string and a terminating NUL. -/
def c_str (s : Bytes) : Bytes := s ++ [0]

/-- The C string a `char *` denotes: the bytes before the first NUL. -/
def cstring (buf : Bytes) : Bytes := buf.takeWhile (fun c => decide (c ≠ 0))

/-- The C library's `strlen`. -/
def strlen (buf : Bytes) : Nat := (cstring buf).length

/-- A call of a filesystem primitive, with the name it is given. -/
inductive Call where
  | fopen (name mode : Bytes)
  | remove (name : Bytes)
deriving DecidableEq, Repr

/-- Source function `FILE *ssfopen(const std::string &filename, const char *mode)`: the filesystem
primitives it calls, and its outcome. -/
def ssfopen (P : Platform) (filename mode : Bytes) : List Call × Except Stop Ptr :=
  match ssassert P "ssfopen" (filename.length == strlen (c_str filename))
      "filename.length() == strlen(filename.c_str())"
      "Unexpected null byte in middle of a path" with
  | .error e => ([], .error e)
  | .ok _ =>
    ([.fopen (cstring (c_str filename)) (cstring mode)],
      .ok (P.fopen (cstring (c_str filename)) (cstring mode)))

/-- Source function `void ssremove(const std::string &filename)`: the filesystem primitives it
calls, and its outcome; the value `remove` returns is dropped. -/
def ssremove (P : Platform) (filename : Bytes) : List Call × Except Stop Unit :=
  match ssassert P "ssremove" (filename.length == strlen (c_str filename))
      "filename.length() == strlen(filename.c_str())"
      "Unexpected null byte in middle of a path" with
  | .error e => ([], .error e)
  | .ok _ =>
    let _ := P.remove (cstring (c_str filename))
    ([.remove (cstring (c_str filename))], .ok ())

/-- Source function `void *MemAlloc(size_t n)`, with `m` the outcome of its `malloc` call.  Storage
obtained here does not belong to the arena and is not tracked in `Arena.heap`. -/
def MemAlloc (P : Platform) (_n : Nat) (m : Storage) (s : Arena) : Except Stop (Ptr × Arena) := do
  let p := m.ptr
  ssassert P "MemAlloc" (p != NULL) "p != NULL" "Cannot allocate memory"
  pure (p, s)

/-- The bytes of the string `"good\0bad"`. -/
def goodNulBad : Bytes := [103, 111, 111, 100, 0, 98, 97, 100]

/-- The bytes of the string `"good.txt"`. -/
def goodTxt : Bytes := [103, 111, 111, 100, 46, 116, 120, 116]

/-- The bytes of the mode string `"r"`. -/
def modeR : Bytes := [114]

/-- An environment in which the file `good.txt` exists and `remove` always fails. -/
def demoPlatform : Platform :=
  { file := "unixutil.cpp", lineOf := fun _ => 0, stack := [4198400, 4198912],
    symbols := none, showPtr := fun p => toString p,
    fopen := fun name _ => if name = goodTxt then 24576 else NULL,
    remove := fun _ => -1 }

/-- The C library's `tolower` in the POSIX locale: the letters `A`..`Z` map to
`a`..`z`, every other byte to itself. -/
def tolower (c : Nat) : Nat := if 65 ≤ c ∧ c ≤ 90 then c + 32 else c

/-- The C library's `strcasecmp` on two character buffers: the bytes are compared
after `tolower`, up to the first difference or the first NUL (the end of a buffer
reads as NUL). -/
def strcasecmp : Bytes → Bytes → Int
  | [], [] => 0
  | [], y :: _ => (tolower 0 : Int) - (tolower y : Int)
  | x :: _, [] => (tolower x : Int) - (tolower 0 : Int)
  | x :: xs, y :: ys =>
    if tolower x ≠ tolower y then (tolower x : Int) - (tolower y : Int)
    else if x = 0 then 0
    else strcasecmp xs ys

/-- Source function `bool PathEqual(const std::string &a, const std::string &b)`; `apple` tells
whether `__APPLE__` is defined. -/
def PathEqual (apple : Bool) (a b : Bytes) : Bool :=
  if apple then decide (strcasecmp (c_str a) (c_str b) = 0)
  else a == b

/-- The bytes of the string `"a/b"`. -/
def aSlashB : Bytes := [97, 47, 98]

/-- The bytes of the string `"Foo.txt"`. -/
def fooUpper : Bytes := [70, 111, 111, 46, 116, 120, 116]

/-- The bytes of the string `"foo.txt"`. -/
def fooLower : Bytes := [102, 111, 111, 46, 116, 120, 116]

/-- The bytes of the string `"a\0b"`. -/
def aNulB : Bytes := [97, 0, 98]

/-- The bytes of the string `"a\0c"`. -/
def aNulC : Bytes := [97, 0, 99]

/-- The arena after `AllocTemporary(8)` from the initial state, with the block at
address 4096. -/
def oneBlock : Arena := { Head := 4096, heap := [(4096, newBlock 8 Arena.init)], freed := [] }

/-! ## Heap lemmas -/

theorem look_put (p q : Ptr) (b : Block) (h : List (Ptr × Block)) :
    look q (put p b h) = if q = p then (look p h).map (fun _ => b) else look q h := by
  induction h with
  | nil => simp [look, put]
  | cons e t ih =>
    obtain ⟨r, c⟩ := e
    by_cases hr : r = p
    · by_cases hq : q = p
      · subst hr; subst hq; simp [look, put]
      · subst hr; simp [look, put, hq, ih, Ne.symm hq]
    · by_cases hq : q = p
      · subst hq; simp [look, put, hr, ih]
      · simp only [put, hr, if_false, look, ih, hq]

theorem look_unmap (p q : Ptr) (h : List (Ptr × Block)) :
    look q (unmap p h) = if q = p then none else look q h := by
  induction h with
  | nil => simp [look, unmap]
  | cons e t ih =>
    obtain ⟨r, c⟩ := e
    by_cases hr : r = p
    · subst hr
      by_cases hq : q = r
      · subst hq; simpa [unmap, look] using ih
      · simp [unmap, look, ih, hq, Ne.symm hq]
    · by_cases hq : q = p
      · subst hq; simp [unmap, look, hr, ih]
      · simp [unmap, look, hr, ih, hq]

theorem length_put (p : Ptr) (b : Block) (h : List (Ptr × Block)) :
    (put p b h).length = h.length := by
  induction h with
  | nil => rfl
  | cons e t ih =>
    obtain ⟨r, c⟩ := e
    by_cases hr : r = p <;> simp [put, hr, ih]

theorem length_unmap_le (p : Ptr) (h : List (Ptr × Block)) :
    (unmap p h).length ≤ h.length := by
  induction h with
  | nil => simp [unmap]
  | cons e t ih =>
    obtain ⟨r, c⟩ := e
    by_cases hr : r = p <;> simp [unmap, hr] <;> omega

theorem length_unmap_lt (p : Ptr) (h : List (Ptr × Block)) (hp : look p h ≠ none) :
    (unmap p h).length < h.length := by
  induction h with
  | nil => simp [look] at hp
  | cons e t ih =>
    obtain ⟨r, c⟩ := e
    by_cases hr : r = p
    · have := length_unmap_le p t
      simp [unmap, hr]
      omega
    · have := ih (by simpa [look, hr] using hp)
      simp [unmap, hr]
      omega

theorem heap_eq_nil (h : List (Ptr × Block)) (hall : ∀ p, look p h = none) : h = [] := by
  cases h with
  | nil => rfl
  | cons e t =>
    obtain ⟨r, c⟩ := e
    have := hall r
    simp [look] at this


/-! ## Chains -/

theorem chain_cons {heap : List (Ptr × Block)} {prev p a : Ptr} {L : List Ptr} :
    Chain heap prev p (a :: L) ↔
      p = a ∧ a ≠ NULL ∧ ∃ b, look a heap = some b ∧ sizeofAllocTempHeader ≤ b.cap ∧
        b.prev = prev ∧ Chain heap a b.next L := by
  cases hl : look a heap <;> simp [Chain, hl]

theorem chain_nil {heap : List (Ptr × Block)} {prev p : Ptr} :
    Chain heap prev p [] ↔ p = NULL := by simp [Chain]

/-- Every pointer of a chain is non-null and points to a live allocation. -/
theorem chain_mem {heap : List (Ptr × Block)} {L : List Ptr} :
    ∀ {prev p : Ptr}, Chain heap prev p L → ∀ a ∈ L, a ≠ NULL ∧
      ∃ b, look a heap = some b ∧ sizeofAllocTempHeader ≤ b.cap := by
  induction L with
  | nil => intro _ _ _ a ha; simp at ha
  | cons x T ih =>
    intro prev p hc a ha
    obtain ⟨_, hx0, b, hb, hcap, _, hT⟩ := chain_cons.mp hc
    rcases List.mem_cons.mp ha with rfl | ha
    · exact ⟨hx0, b, hb, hcap⟩
    · exact ih hT a ha

/-- A chain only depends on the allocations it visits. -/
theorem chain_frame {heap heap2 : List (Ptr × Block)} {L : List Ptr} :
    ∀ {prev p : Ptr}, Chain heap prev p L → (∀ a ∈ L, look a heap2 = look a heap) →
      Chain heap2 prev p L := by
  induction L with
  | nil => intro _ _ hc _; exact hc
  | cons x T ih =>
    intro prev p hc hag
    obtain ⟨hp, hx0, b, hb, hcap, hprev, hT⟩ := chain_cons.mp hc
    refine chain_cons.mpr ⟨hp, hx0, b, ?_, hcap, hprev, ih hT ?_⟩
    · rw [hag x (List.mem_cons_self _ _)]; exact hb
    · intro a ha; exact hag a (List.mem_cons_of_mem _ ha)

/-- Changing the `prev` field of the first block of a chain. -/
theorem chain_reprev {heap heap2 : List (Ptr × Block)} {L : List Ptr} {prev p v : Ptr}
    (hc : Chain heap prev p L) (hnd : L.Nodup)
    (hp : ∀ b, look p heap = some b → look p heap2 = some { b with prev := v })
    (hag : ∀ a ∈ L, a ≠ p → look a heap2 = look a heap) :
    Chain heap2 v p L := by
  cases L with
  | nil => exact hc
  | cons x T =>
    obtain ⟨hpx, hx0, b, hb, hcap, _, hT⟩ := chain_cons.mp hc
    subst hpx
    have hxT : p ∉ T := (List.nodup_cons.mp hnd).1
    refine chain_cons.mpr ⟨rfl, hx0, { b with prev := v }, hp b hb, hcap, rfl, ?_⟩
    refine chain_frame hT ?_
    intro a ha
    exact hag a (List.mem_cons_of_mem _ ha) (fun h => hxT (h ▸ ha))

/-- The walk from `p` reads off a chain, given enough fuel. -/
theorem walk_chain {heap : List (Ptr × Block)} {L : List Ptr} :
    ∀ {prev p : Ptr} {fuel : Nat}, Chain heap prev p L → L.length ≤ fuel →
      walk heap fuel p = L := by
  induction L with
  | nil =>
    intro prev p fuel hc _
    have : p = NULL := hc
    cases fuel <;> simp [walk, this]
  | cons x T ih =>
    intro prev p fuel hc hf
    obtain ⟨hpx, hx0, b, hb, _, _, hT⟩ := chain_cons.mp hc
    subst hpx
    cases fuel with
    | zero => simp at hf
    | succ k =>
      have hk : T.length ≤ k := by simpa using hf
      simp [walk, hx0, hb, ih hT hk]

theorem look_mem {heap : List (Ptr × Block)} {p : Ptr} {b : Block}
    (h : look p heap = some b) : p ∈ heap.map Prod.fst := by
  induction heap with
  | nil => simp [look] at h
  | cons e t ih =>
    obtain ⟨r, c⟩ := e
    by_cases hr : r = p
    · simp [hr]
    · simp [look, hr] at h
      exact List.mem_cons_of_mem _ (ih h)

theorem mem_look {heap : List (Ptr × Block)} {p : Ptr}
    (h : p ∈ heap.map Prod.fst) : ∃ b, look p heap = some b := by
  induction heap with
  | nil => simp at h
  | cons e t ih =>
    obtain ⟨r, c⟩ := e
    by_cases hr : r = p
    · exact ⟨c, by simp [look, hr]⟩
    · simp only [List.map_cons, List.mem_cons] at h
      rcases h with h | h
      · exact absurd h.symm hr
      · obtain ⟨b, hb⟩ := ih h
        exact ⟨b, by simp [look, hr, hb]⟩

/-- A chain without repetition is no longer than the heap. -/
theorem chain_length_le {heap : List (Ptr × Block)} {L : List Ptr} {prev p : Ptr}
    (hc : Chain heap prev p L) (hnd : L.Nodup) : L.length ≤ heap.length := by
  have hsub : L ⊆ heap.map Prod.fst := by
    intro a ha
    obtain ⟨_, b, hb, _⟩ := chain_mem hc a ha
    exact look_mem hb
  have := (List.subperm_of_subset hnd hsub).length_le
  simpa using this

theorem WFL.liveList_eq {s : Arena} {L : List Ptr} (h : WFL s L) : liveList s = L :=
  walk_chain h.1 (chain_length_le h.1 h.2.1)

theorem WFL.wf {s : Arena} {L : List Ptr} (h : WFL s L) : WF s := by
  unfold WF; rw [h.liveList_eq]; exact h

theorem wf_iff {s : Arena} : WF s ↔ ∃ L, WFL s L :=
  ⟨fun h => ⟨_, h⟩, fun ⟨_, h⟩ => h.wf⟩

theorem WFL.look_none {s : Arena} {L : List Ptr} (h : WFL s L) {p : Ptr} (hp : p ∉ L) :
    look p s.heap = none := by
  cases hl : look p s.heap with
  | none => rfl
  | some b =>
    have := look_mem hl
    obtain ⟨e, he, rfl⟩ := List.mem_map.mp this
    exact absurd (h.2.2 e he) hp

theorem wfl_init : WFL Arena.init [] := by decide

/-! ## What `AllocTemporary` does -/

theorem put_absent {p : Ptr} {b : Block} {h : List (Ptr × Block)} (hp : look p h = none) :
    put p b h = h := by
  induction h with
  | nil => rfl
  | cons e t ih =>
    obtain ⟨r, c⟩ := e
    by_cases hr : r = p
    · simp [look, hr] at hp
    · simp [look, hr] at hp
      simp [put, hr, ih hp]

theorem alloc_eq_empty {n : Nat} {m : Storage} {s : Arena} (hfit : Fits n) (hfresh : Fresh m s)
    (hH : s.Head = NULL) :
    AllocTemporary n m s = .ok (m.ptr + sizeofAllocTempHeader,
      { Head := m.ptr, heap := (m.ptr, newBlock n s) :: s.heap, freed := s.freed }) := by
  obtain ⟨hp0, hpn⟩ := hfresh
  have hmod : (n + sizeofAllocTempHeader) % SIZE_MOD = n + sizeofAllocTempHeader :=
    Nat.mod_eq_of_lt hfit
  have h8 : ptrBytes ≤ n + sizeofAllocTempHeader := by
    simp [ptrBytes, sizeofAllocTempHeader]
  have h16 : 2 * ptrBytes ≤ n + sizeofAllocTempHeader := by
    simp [sizeofAllocTempHeader]
  simp [AllocTemporary, malloc, hp0, hmod, Arena.storePrev, Arena.storeNext, Arena.memset,
    Arena.deref, look, put, hH, h8, h16, Except.map, bind, Except.bind, pure, Except.pure,
    put_absent hpn, newBlock, Nat.add_comm]

theorem alloc_eq_cons {n : Nat} {m : Storage} {s : Arena} {bh : Block} (hfit : Fits n)
    (hfresh : Fresh m s) (hH : s.Head ≠ NULL) (hb : look s.Head s.heap = some bh)
    (hcap : ptrBytes ≤ bh.cap) :
    AllocTemporary n m s = .ok (m.ptr + sizeofAllocTempHeader,
      { Head := m.ptr,
        heap := (m.ptr, newBlock n s) :: put s.Head { bh with prev := m.ptr } s.heap,
        freed := s.freed }) := by
  obtain ⟨hp0, hpn⟩ := hfresh
  have hmod : (n + sizeofAllocTempHeader) % SIZE_MOD = n + sizeofAllocTempHeader :=
    Nat.mod_eq_of_lt hfit
  have h8 : ptrBytes ≤ n + sizeofAllocTempHeader := by
    simp [ptrBytes, sizeofAllocTempHeader]
  have h16 : 2 * ptrBytes ≤ n + sizeofAllocTempHeader := by
    simp [sizeofAllocTempHeader]
  have hne : m.ptr ≠ s.Head := by
    intro h
    rw [← h, hpn] at hb
    cases hb
  have hpn2 : look m.ptr (put s.Head { bh with prev := m.ptr } s.heap) = none := by
    rw [look_put]; simp [hne, hpn]
  simp [AllocTemporary, malloc, hp0, hmod, Arena.storePrev, Arena.storeNext, Arena.memset,
    Arena.deref, look, put, hH, h8, h16, Except.map, bind, Except.bind, pure, Except.pure,
    put_absent hpn, put_absent hpn2, newBlock, Nat.add_comm, hne, hb, hcap]

theorem wfl_iff {s : Arena} {L : List Ptr} :
    WFL s L ↔ Chain s.heap NULL s.Head L ∧ L.Nodup ∧
      ∀ p b, look p s.heap = some b → p ∈ L := by
  unfold WFL
  constructor
  · rintro ⟨h1, h2, h3⟩
    refine ⟨h1, h2, ?_⟩
    intro p b hb
    obtain ⟨e, he, rfl⟩ := List.mem_map.mp (look_mem hb)
    exact h3 e he
  · rintro ⟨h1, h2, h3⟩
    refine ⟨h1, h2, ?_⟩
    intro e he
    obtain ⟨b, hb⟩ := mem_look (List.mem_map_of_mem Prod.fst he)
    exact h3 _ b hb

theorem WFL.head_block {s : Arena} {L : List Ptr} (h : WFL s L) (hH : s.Head ≠ NULL) :
    ∃ b T, L = s.Head :: T ∧ look s.Head s.heap = some b ∧ sizeofAllocTempHeader ≤ b.cap ∧
      b.prev = NULL ∧ Chain s.heap s.Head b.next T := by
  cases L with
  | nil => exact absurd (chain_nil.mp h.1) hH
  | cons x T =>
    obtain ⟨hx, _, b, hb, hcap, hprev, hT⟩ := chain_cons.mp h.1
    subst hx
    exact ⟨b, T, rfl, hb, hcap, hprev, hT⟩

theorem WFL.head_nil {s : Arena} {L : List Ptr} (h : WFL s L) (hH : s.Head = NULL) :
    L = [] := by
  cases L with
  | nil => rfl
  | cons x T =>
    obtain ⟨hx, hx0, _⟩ := chain_cons.mp h.1
    exact absurd (hx ▸ hH) hx0

/-- Effect of `AllocTemporary` on a well-formed arena, by lookups. -/
theorem alloc_spec {n : Nat} {m : Storage} {s : Arena} {L : List Ptr} (hwf : WFL s L)
    (hfit : Fits n) (hfresh : Fresh m s) :
    ∃ s2, AllocTemporary n m s = .ok (m.ptr + sizeofAllocTempHeader, s2) ∧
      s2.Head = m.ptr ∧ s2.freed = s.freed ∧
      ∀ q, look q s2.heap =
        if q = m.ptr then some (newBlock n s)
        else if q = s.Head then (look q s.heap).map (fun b => { b with prev := m.ptr })
        else look q s.heap := by
  by_cases hH : s.Head = NULL
  · refine ⟨_, alloc_eq_empty hfit hfresh hH, rfl, rfl, ?_⟩
    intro q
    have hn : look NULL s.heap = none := by
      have := hwf.head_nil hH
      subst this
      exact hwf.look_none (by simp)
    by_cases hq : q = m.ptr
    · simp [look, hq]
    · by_cases hq2 : q = s.Head
      · subst hq2
        have hn2 : look s.Head s.heap = none := by rw [hH]; exact hn
        simp [look, hq, Ne.symm hq, hn2]
      · simp [look, Ne.symm hq, hq, hq2]
  · obtain ⟨b, T, _, hb, hcap, _⟩ := hwf.head_block hH
    have h8 : ptrBytes ≤ b.cap := by
      simp [sizeofAllocTempHeader, ptrBytes] at hcap ⊢; omega
    refine ⟨_, alloc_eq_cons hfit hfresh hH hb h8, rfl, rfl, ?_⟩
    intro q
    by_cases hq : q = m.ptr
    · simp [look, hq]
    · by_cases hq2 : q = s.Head
      · subst hq2
        simp [look, Ne.symm hq, hq, look_put, hb]
      · simp [look, Ne.symm hq, hq, hq2, look_put]

/-- The call `AllocTemporary` keeps the arena well formed and puts the new block first. -/
theorem alloc_wfl {n : Nat} {m : Storage} {s : Arena} {L : List Ptr} (hwf : WFL s L)
    (hfit : Fits n) (hfresh : Fresh m s) :
    ∃ s2, AllocTemporary n m s = .ok (m.ptr + sizeofAllocTempHeader, s2) ∧
      WFL s2 (m.ptr :: L) ∧ s2.Head = m.ptr ∧ s2.freed = s.freed ∧
      ∀ q, look q s2.heap =
        if q = m.ptr then some (newBlock n s)
        else if q = s.Head then (look q s.heap).map (fun b => { b with prev := m.ptr })
        else look q s.heap := by
  obtain ⟨s2, hrun, hhead, hfreed, hlook⟩ := alloc_spec hwf hfit hfresh
  refine ⟨s2, hrun, ?_, hhead, hfreed, hlook⟩
  obtain ⟨hp0, hpn⟩ := hfresh
  obtain ⟨hc, hnd, hall⟩ := wfl_iff.mp hwf
  have hnotin : m.ptr ∉ L := by
    intro hin
    obtain ⟨_, b, hb, _⟩ := chain_mem hc _ hin
    rw [hpn] at hb; cases hb
  refine wfl_iff.mpr ⟨?_, List.nodup_cons.mpr ⟨hnotin, hnd⟩, ?_⟩
  · rw [hhead]
    refine chain_cons.mpr ⟨rfl, hp0, newBlock n s, by simp [hlook], by simp [newBlock], rfl, ?_⟩
    have hne : s.Head ≠ m.ptr := by
      intro h
      cases L with
      | nil => exact hp0 (h ▸ chain_nil.mp hc)
      | cons x T =>
        obtain ⟨hx, _⟩ := chain_cons.mp hc
        exact hnotin (by rw [← h, hx]; exact List.mem_cons_self _ _)
    show Chain s2.heap m.ptr s.Head L
    refine chain_reprev hc hnd ?_ ?_
    · intro b hb
      rw [hlook]; simp [hne, hb]
    · intro a ha hne2
      rw [hlook]
      have : a ≠ m.ptr := fun h => hnotin (h ▸ ha)
      simp [this, hne2]
  · intro p b hb
    rw [hlook] at hb
    by_cases hq : p = m.ptr
    · simp [hq]
    · simp only [hq, if_false] at hb
      by_cases hq2 : p = s.Head
      · simp only [hq2, if_true] at hb
        cases hl : look s.Head s.heap with
        | none => rw [hl] at hb; simp at hb
        | some c => rw [hq2]; exact List.mem_cons_of_mem _ (hall _ c hl)
      · simp only [hq2, if_false] at hb
        exact List.mem_cons_of_mem _ (hall _ b hb)

/-! ## What `FreeTemporary` does -/

/-- The neighbours of a block of a chain: its `prev` is the start marker or the
block before it, its `next` is `NULL` or the block after it. -/
theorem chain_links {heap : List (Ptr × Block)} {L : List Ptr} :
    ∀ {p0 hd : Ptr}, Chain heap p0 hd L → L.Nodup → p0 ∉ L → ∀ b ∈ L,
      ∃ bb, look b heap = some bb ∧ sizeofAllocTempHeader ≤ bb.cap ∧
        ((hd = b ∧ bb.prev = p0) ∨
          (hd ≠ b ∧ bb.prev ∈ L ∧ bb.prev ≠ b ∧
            ∃ bp, look bb.prev heap = some bp ∧ sizeofAllocTempHeader ≤ bp.cap ∧ bp.next = b)) ∧
        (bb.next = NULL ∨
          (bb.next ∈ L ∧ bb.next ≠ b ∧ bb.next ≠ bb.prev ∧
            ∃ bn, look bb.next heap = some bn ∧ sizeofAllocTempHeader ≤ bn.cap ∧ bn.prev = b)) := by
  induction L with
  | nil => intro _ _ _ _ _ b hb; simp at hb
  | cons x T ih =>
    intro p0 hd hc hnd hp0 b hb
    obtain ⟨hhd, hx0, bx, hbx, hcap, hprev, hT⟩ := chain_cons.mp hc
    obtain ⟨hxT, hndT⟩ := List.nodup_cons.mp hnd
    by_cases hxb : x = b
    · subst hxb
      refine ⟨bx, hbx, hcap, Or.inl ⟨hhd, hprev⟩, ?_⟩
      cases T with
      | nil => exact Or.inl (chain_nil.mp hT)
      | cons y T2 =>
        obtain ⟨hy, _, bn, hbn, hcapn, hprevn, _⟩ := chain_cons.mp hT
        right
        rw [hy]
        refine ⟨by simp, ?_, ?_, bn, hbn, hcapn, hprevn⟩
        · intro h; exact hxT (h ▸ List.mem_cons_self _ _)
        · intro h; rw [hprev] at h; exact hp0 (h ▸ by simp)
    · have hbT : b ∈ T := by
        rcases List.mem_cons.mp hb with h | h
        · exact absurd h.symm hxb
        · exact h
      obtain ⟨bb, hbb, hcapb, hpv, hnx⟩ := ih hT hndT hxT b hbT
      refine ⟨bb, hbb, hcapb, Or.inr ⟨by rw [hhd]; exact hxb, ?_⟩, ?_⟩
      · rcases hpv with ⟨h1, h2⟩ | ⟨_, h2, h3, h4⟩
        · rw [h2]
          exact ⟨List.mem_cons_self _ _, hxb, bx, hbx, hcap, h1⟩
        · exact ⟨List.mem_cons_of_mem _ h2, h3, h4⟩
      · rcases hnx with h | ⟨h1, h2, h3, h4⟩
        · exact Or.inl h
        · exact Or.inr ⟨List.mem_cons_of_mem _ h1, h2, h3, h4⟩

theorem chain_null_notin {heap : List (Ptr × Block)} {L : List Ptr} {p0 hd : Ptr}
    (hc : Chain heap p0 hd L) : NULL ∉ L :=
  fun h => (chain_mem hc NULL h).1 rfl

/-- The neighbours of a block of a well-formed arena. -/
theorem WFL.neighbours {s : Arena} {L : List Ptr} (hwf : WFL s L) {b : Ptr} (hb : b ∈ L) :
    b ≠ NULL ∧ ∃ bb, look b s.heap = some bb ∧ sizeofAllocTempHeader ≤ bb.cap ∧
      (bb.prev = NULL → s.Head = b) ∧
      (bb.prev ≠ NULL → s.Head ≠ b ∧ bb.prev ≠ b ∧ bb.prev ∈ L ∧
        ∃ bp, look bb.prev s.heap = some bp ∧ sizeofAllocTempHeader ≤ bp.cap ∧ bp.next = b) ∧
      (bb.next ≠ NULL → bb.next ≠ b ∧ bb.next ≠ bb.prev ∧ bb.next ∈ L ∧
        ∃ bn, look bb.next s.heap = some bn ∧ sizeofAllocTempHeader ≤ bn.cap ∧ bn.prev = b) := by
  have hnull := chain_null_notin hwf.1
  obtain ⟨bb, hbb, hcap, hpv, hnx⟩ := chain_links hwf.1 hwf.2.1 hnull b hb
  refine ⟨(chain_mem hwf.1 b hb).1, bb, hbb, hcap, ?_, ?_, ?_⟩
  · intro h0
    rcases hpv with ⟨h1, _⟩ | ⟨_, h2, _⟩
    · exact h1
    · exact absurd (h0 ▸ h2) hnull
  · intro h0
    rcases hpv with ⟨_, h2⟩ | ⟨h1, h2, h3, h4⟩
    · exact absurd h2 h0
    · exact ⟨h1, h3, h2, h4⟩
  · intro h0
    rcases hnx with h | ⟨h1, h2, h3, h4⟩
    · exact absurd h h0
    · exact ⟨h2, h3, h1, h4⟩

/-- Unlinking `b` from a chain: the heap after has `b`'s successor pointing back to
`b`'s predecessor and `b`'s predecessor pointing on to `b`'s successor. -/
theorem chain_unlink {heap heap2 : List (Ptr × Block)} {b : Ptr} {bb : Block}
    (hbb : look b heap = some bb)
    (hlook : ∀ q, q ≠ b → look q heap2 =
      if q = bb.next then (look q heap).map (fun c => { c with prev := bb.prev })
      else if q = bb.prev then (look q heap).map (fun c => { c with next := bb.next })
      else look q heap) {L : List Ptr} :
    ∀ {p0 hd : Ptr}, Chain heap p0 hd L → L.Nodup → p0 ∉ L → b ∈ L →
      Chain heap2 p0 (if hd = b then bb.next else hd) (L.erase b) := by
  induction L with
  | nil => intro _ _ _ _ _ hb; simp at hb
  | cons x T ih =>
    intro p0 hd hc hnd hp0 hb
    obtain ⟨hhd, hx0, bx, hbx, hcap, hprev, hT⟩ := chain_cons.mp hc
    obtain ⟨hxT, hndT⟩ := List.nodup_cons.mp hnd
    by_cases hxb : x = b
    · subst hxb
      rw [hbx] at hbb
      cases hbb
      simp only [hhd, if_true, List.erase_cons_head]
      cases T with
      | nil => exact hT
      | cons y T2 =>
        obtain ⟨hy, _, bn, hbn, _, _, _⟩ := chain_cons.mp hT
        have hyx : bb.next ≠ x := fun h => hxT (by rw [← h, hy]; exact List.mem_cons_self _ _)
        refine chain_reprev hT hndT ?_ ?_
        · intro c hc2
          rw [hlook _ hyx]; simp [hc2, hprev]
        · intro a ha hane
          have h1 : a ≠ x := fun h => hxT (h ▸ ha)
          have h2 : a ≠ bb.prev := by
            rw [hprev]; intro h; exact hp0 (h ▸ List.mem_cons_of_mem _ ha)
          rw [hlook _ h1]; simp [hane, h2]
    · have hbT : b ∈ T := by
        rcases List.mem_cons.mp hb with h | h
        · exact absurd h.symm hxb
        · exact h
      have hhdb : hd ≠ b := by rw [hhd]; exact hxb
      rw [List.erase_cons_tail (by simpa using hxb)]
      simp only [hhdb, if_false]
      obtain ⟨bb2, hbb2, _, hpv, hnx⟩ := chain_links hT hndT hxT b hbT
      rw [hbb] at hbb2
      cases hbb2
      have hxn : x ≠ bb.next := by
        rcases hnx with h | ⟨h, _⟩
        · rw [h]; exact hx0
        · intro h2; exact hxT (h2 ▸ h)
      have ih2 := ih hT hndT hxT hbT
      rcases hpv with ⟨h1, h2⟩ | ⟨h1, h2, _⟩
      · refine chain_cons.mpr ⟨hhd, hx0, { bx with next := bb.next }, ?_, hcap, hprev, ?_⟩
        · rw [hlook _ hxb]; simp [hxn, h2, hbx]
        · simpa [h1] using ih2
      · have hxp : x ≠ bb.prev := fun h => hxT (h ▸ h2)
        refine chain_cons.mpr ⟨hhd, hx0, bx, ?_, hcap, hprev, ?_⟩
        · rw [hlook _ hxb]; simp [hxn, hxp, hbx]
        · simpa [h1] using ih2

theorem WFL.look_null {s : Arena} {L : List Ptr} (hwf : WFL s L) : look NULL s.heap = none :=
  hwf.look_none (chain_null_notin hwf.1)

/-- Effect of `FreeTemporary` on the handle of a live block, by lookups. -/
theorem free_spec {s : Arena} {L : List Ptr} (hwf : WFL s L) {b : Ptr} {bb : Block}
    (hb : b ∈ L) (hbb : look b s.heap = some bb) :
    ∃ s2, FreeTemporary (b + sizeofAllocTempHeader) s = .ok s2 ∧
      s2.Head = (if s.Head = b then bb.next else s.Head) ∧ s2.freed = s.freed ++ [b] ∧
      ∀ q, look q s2.heap =
        if q = b then none
        else if q = bb.next then (look q s.heap).map (fun c => { c with prev := bb.prev })
        else if q = bb.prev then (look q s.heap).map (fun c => { c with next := bb.next })
        else look q s.heap := by
  obtain ⟨hb0, bb2, hbb2, hcap, hp0, hp1, hn1⟩ := hwf.neighbours hb
  rw [hbb] at hbb2
  cases hbb2
  have hnull := hwf.look_null
  have h8 : ptrBytes ≤ bb.cap := by
    simp [sizeofAllocTempHeader, ptrBytes] at hcap ⊢; omega
  have h16 : 2 * ptrBytes ≤ bb.cap := hcap
  by_cases hP : bb.prev = NULL
  · have hH := hp0 hP
    by_cases hN : bb.next = NULL
    · simp [FreeTemporary, Arena.loadPrev, Arena.loadNext, Arena.storePrev, Arena.storeNext,
        Arena.free, Arena.deref, hb0, hbb, h8, h16, hP, hN, hH, Except.map, bind, Except.bind,
        pure, Except.pure, look_unmap]
      intro q
      by_cases hq : q = b
      · simp [hq]
      · by_cases hq2 : q = NULL
        · simp [hq, hq2, hnull]
        · simp [hq, hq2]
    · obtain ⟨hnb, _, _, bn, hbn, hcapn, _⟩ := hn1 hN
      have hn8 : ptrBytes ≤ bn.cap := by
        simp [sizeofAllocTempHeader, ptrBytes] at hcapn ⊢; omega
      simp [FreeTemporary, Arena.loadPrev, Arena.loadNext, Arena.storePrev, Arena.storeNext,
        Arena.free, Arena.deref, hb0, hbb, h8, h16, hP, hN, hH, Except.map, bind, Except.bind,
        pure, Except.pure, look_unmap, look_put, hbn, hn8, hnb, Ne.symm hnb]
      intro q
      by_cases hq : q = b
      · simp [hq]
      · by_cases hq2 : q = bb.next
        · simp [hq2, hnb, hbn]
        · by_cases hq3 : q = NULL
          · subst hq3; simp [hq, hq2, hnull, hP]
          · simp [hq, hq2, hq3]
  · obtain ⟨hHb, hpb, _, bp, hbp, hcapp, _⟩ := hp1 hP
    have hp16 : 2 * ptrBytes ≤ bp.cap := hcapp
    by_cases hN : bb.next = NULL
    · simp [FreeTemporary, Arena.loadPrev, Arena.loadNext, Arena.storePrev, Arena.storeNext,
        Arena.free, Arena.deref, hb0, hbb, h8, h16, hP, hN, hHb, Except.map, bind, Except.bind,
        pure, Except.pure, look_unmap, look_put, hbp, hp16, hpb, Ne.symm hpb]
      intro q
      by_cases hq : q = b
      · simp [hq]
      · by_cases hq2 : q = NULL
        · simp [hq, hq2, hnull, Ne.symm hP]
        · by_cases hq3 : q = bb.prev
          · simp [hq3, hpb, hP, hbp]
          · simp [hq, hq2, hq3]
    · obtain ⟨hnb, hnp, _, bn, hbn, hcapn, _⟩ := hn1 hN
      have hn8 : ptrBytes ≤ bn.cap := by
        simp [sizeofAllocTempHeader, ptrBytes] at hcapn ⊢; omega
      simp [FreeTemporary, Arena.loadPrev, Arena.loadNext, Arena.storePrev, Arena.storeNext,
        Arena.free, Arena.deref, hb0, hbb, h8, h16, hP, hN, hHb, Except.map, bind, Except.bind,
        pure, Except.pure, look_unmap, look_put, hbp, hp16, hpb, Ne.symm hpb, hbn, hn8, hnb,
        Ne.symm hnb, hnp, Ne.symm hnp]
      intro q
      by_cases hq : q = b
      · simp [hq]
      · by_cases hq2 : q = bb.next
        · simp [hq2, hnb, hbn, hnp]
        · by_cases hq3 : q = bb.prev
          · simp [hq3, hpb, hbp, Ne.symm hnp]
          · simp [hq, hq2, hq3]

/-- The call `FreeTemporary` on the handle of a live block keeps the arena well formed and
erases exactly that block from the live list. -/
theorem free_wfl {s : Arena} {L : List Ptr} (hwf : WFL s L) {b : Ptr} (hb : b ∈ L) :
    ∃ bb s2, look b s.heap = some bb ∧
      FreeTemporary (b + sizeofAllocTempHeader) s = .ok s2 ∧ WFL s2 (L.erase b) ∧
      s2.Head = (if s.Head = b then bb.next else s.Head) ∧ s2.freed = s.freed ++ [b] ∧
      ∀ q, look q s2.heap =
        if q = b then none
        else if q = bb.next then (look q s.heap).map (fun c => { c with prev := bb.prev })
        else if q = bb.prev then (look q s.heap).map (fun c => { c with next := bb.next })
        else look q s.heap := by
  obtain ⟨_, bb, hbb, _⟩ := chain_mem hwf.1 b hb
  obtain ⟨s2, hrun, hhead, hfreed, hlook⟩ := free_spec hwf hb hbb
  refine ⟨bb, s2, hbb, hrun, ?_, hhead, hfreed, hlook⟩
  obtain ⟨hc, hnd, hall⟩ := wfl_iff.mp hwf
  refine wfl_iff.mpr ⟨?_, hnd.erase b, ?_⟩
  · rw [hhead]
    refine chain_unlink hbb ?_ hc hnd (chain_null_notin hc) hb
    intro q hq
    rw [hlook]; simp [hq]
  · intro p c hpc
    rw [hlook] at hpc
    by_cases hq : p = b
    · simp [hq] at hpc
    · have hin : p ∈ L := by
        cases hl : look p s.heap with
        | none => simp [hq, hl] at hpc
        | some d => exact hall p d hl
      exact (List.mem_erase_of_ne hq).mpr hin

/-! ## What `FreeAllTemporary` does -/

theorem look_unmapAll (L : List Ptr) :
    ∀ (heap : List (Ptr × Block)) (q : Ptr),
      look q (L.foldl (fun h p => unmap p h) heap) = if q ∈ L then none else look q heap := by
  induction L with
  | nil => intro heap q; simp
  | cons x T ih =>
    intro heap q
    rw [List.foldl_cons, ih, look_unmap]
    by_cases h1 : q ∈ T
    · simp [h1]
    · by_cases h2 : q = x
      · simp [h2]
      · simp [h1, h2]

/-- The loop of `FreeAllTemporary` frees the blocks of the chain it walks, in order. -/
theorem freeAllLoop_chain {L : List Ptr} :
    ∀ {s : Arena} {p0 hd : Ptr} {fuel : Nat}, Chain s.heap p0 hd L → L.Nodup →
      L.length < fuel →
      freeAllLoop fuel hd s =
        .ok { s with heap := L.foldl (fun h p => unmap p h) s.heap, freed := s.freed ++ L } := by
  induction L with
  | nil =>
    intro s p0 hd fuel hc _ hf
    have : hd = NULL := chain_nil.mp hc
    cases fuel with
    | zero => simp at hf
    | succ k => simp [freeAllLoop, this, pure, Except.pure]
  | cons x T ih =>
    intro s p0 hd fuel hc hnd hf
    obtain ⟨hhd, hx0, bx, hbx, hcap, _, hT⟩ := chain_cons.mp hc
    obtain ⟨hxT, hndT⟩ := List.nodup_cons.mp hnd
    subst hhd
    cases fuel with
    | zero => simp at hf
    | succ k =>
      have h16 : 2 * ptrBytes ≤ bx.cap := hcap
      have hT2 : Chain ({ s with heap := unmap hd s.heap, freed := s.freed ++ [hd] } : Arena).heap
          hd bx.next T := by
        refine chain_frame hT ?_
        intro a ha
        have : a ≠ hd := fun h => hxT (h ▸ ha)
        simp [look_unmap, this]
      have hk : T.length < k := by simpa using hf
      have := ih hT2 hndT hk
      simp [freeAllLoop, hx0, Arena.loadNext, Arena.deref, hbx, h16, Arena.free, Except.map,
        bind, Except.bind, this]

/-- On a well-formed arena `FreeAllTemporary` frees the live list head to tail and
leaves nothing allocated. -/
theorem freeAll_wfl {s : Arena} {L : List Ptr} (hwf : WFL s L) :
    FreeAllTemporary s = .ok { Head := NULL, heap := [], freed := s.freed ++ L } := by
  obtain ⟨hc, hnd, hall⟩ := wfl_iff.mp hwf
  have hlen : L.length < s.heap.length + 1 := Nat.lt_succ_of_le (chain_length_le hc hnd)
  have hloop := freeAllLoop_chain hc hnd hlen
  have hempty : L.foldl (fun h p => unmap p h) s.heap = [] := by
    apply heap_eq_nil
    intro q
    rw [look_unmapAll]
    by_cases hq : q ∈ L
    · simp [hq]
    · simp [hq]
      exact hwf.look_none hq
  simp [FreeAllTemporary, hloop, hempty, bind, Except.bind, pure, Except.pure]

/-- The loop of `FreeAllTemporary` never runs out of fuel when given more than the
number of live allocations: every iteration frees one. -/
theorem freeAllLoop_total :
    ∀ (fuel : Nat) (h : Ptr) (s : Arena), s.heap.length < fuel →
      freeAllLoop fuel h s ≠ .error .diverged := by
  intro fuel
  induction fuel with
  | zero => intro h s hf; simp at hf
  | succ k ih =>
    intro h s hf
    by_cases h0 : h = NULL
    · simp [freeAllLoop, h0, pure, Except.pure]
    · cases hl : look h s.heap with
      | none =>
        simp [freeAllLoop, h0, Arena.loadNext, Arena.deref, hl, Except.map, bind, Except.bind]
      | some b =>
        by_cases hcap : 2 * ptrBytes ≤ b.cap
        · have hlt : (unmap h s.heap).length < k := by
            have := length_unmap_lt h s.heap (by simp [hl])
            omega
          have := ih b.next { s with heap := unmap h s.heap, freed := s.freed ++ [h] } hlt
          simpa [freeAllLoop, h0, Arena.loadNext, Arena.deref, hl, hcap, Arena.free, Except.map,
            bind, Except.bind] using this
        · simp [freeAllLoop, h0, Arena.loadNext, Arena.deref, hl, hcap, Except.map, bind,
            Except.bind]

theorem freeAll_total (s : Arena) : FreeAllTemporary s ≠ .error .diverged := by
  have := freeAllLoop_total (s.heap.length + 1) s.Head s (Nat.lt_succ_self _)
  unfold FreeAllTemporary
  cases hl : freeAllLoop (s.heap.length + 1) s.Head s with
  | error e =>
    rw [hl] at this
    simp only [bind, Except.bind, hl]
    exact this
  | ok s2 => simp [bind, Except.bind, pure, Except.pure, hl]

/-! ## Runs of allocations and releases -/

theorem allocMany_wfl (reqs : List (Nat × Storage)) :
    ∀ {s : Arena} {L : List Ptr}, WFL s L → MallocsSucceed reqs s →
      ∃ s2, allocMany reqs s = .ok (reqs.map (fun r => handleOf r.2.ptr), s2) ∧
        WFL s2 ((reqs.map (fun r => r.2.ptr)).reverse ++ L) ∧ s2.freed = s.freed := by
  induction reqs with
  | nil =>
    intro s L hwf _
    exact ⟨s, rfl, by simpa using hwf, rfl⟩
  | cons r rest ih =>
    intro s L hwf hok
    obtain ⟨n, m⟩ := r
    obtain ⟨hall, hnd⟩ := hok
    have hfit : Fits n := (hall (n, m) (List.mem_cons_self _ _)).1
    have hfresh : Fresh m s := (hall (n, m) (List.mem_cons_self _ _)).2
    obtain ⟨s1, hrun, hwf1, _, hfreed1, hlook1⟩ := alloc_wfl hwf hfit hfresh
    have hnd1 : (m.ptr :: rest.map (fun r => r.2.ptr)).Nodup := hnd
    have hnd2 := List.nodup_cons.mp hnd1
    have hok1 : MallocsSucceed rest s1 := by
      refine ⟨?_, hnd2.2⟩
      intro r hr
      obtain ⟨hf, hp0, hpn⟩ := hall r (List.mem_cons_of_mem _ hr)
      refine ⟨hf, hp0, ?_⟩
      have hne : r.2.ptr ≠ m.ptr := by
        intro h
        exact hnd2.1 (by rw [← h]; exact List.mem_map_of_mem (fun r => r.2.ptr) hr)
      rw [hlook1]
      simp [hne, hpn]
    obtain ⟨s2, hrun2, hwf2, hfreed2⟩ := ih hwf1 hok1
    refine ⟨s2, ?_, ?_, by rw [hfreed2, hfreed1]⟩
    · simp [allocMany, hrun, hrun2, bind, Except.bind, pure, Except.pure, handleOf]
    · simpa using hwf2

theorem freeMany_wfl (bs : List Ptr) :
    ∀ {s : Arena} {L : List Ptr}, WFL s L → bs.Nodup → (∀ b ∈ bs, b ∈ L) →
      ∃ s2, freeMany (bs.map handleOf) s = .ok s2 ∧ WFL s2 (L.diff bs) ∧
        s2.freed = s.freed ++ bs := by
  induction bs with
  | nil =>
    intro s L hwf _ _
    exact ⟨s, rfl, by simpa using hwf, by simp⟩
  | cons b rest ih =>
    intro s L hwf hnd hsub
    obtain ⟨hb, hnd2⟩ := List.nodup_cons.mp hnd
    obtain ⟨bb, s1, _, hrun, hwf1, _, hfreed1, _⟩ := free_wfl hwf (hsub b (List.mem_cons_self _ _))
    have hsub1 : ∀ x ∈ rest, x ∈ L.erase b := by
      intro x hx
      have hxb : x ≠ b := fun h => hb (h ▸ hx)
      exact (List.mem_erase_of_ne hxb).mpr (hsub x (List.mem_cons_of_mem _ hx))
    obtain ⟨s2, hrun2, hwf2, hfreed2⟩ := ih hwf1 hnd2 hsub1
    refine ⟨s2, ?_, ?_, ?_⟩
    · simp [freeMany, handleOf, hrun, bind, Except.bind]
      simpa [handleOf] using hrun2
    · simpa [List.diff_cons] using hwf2
    · rw [hfreed2, hfreed1]; simp

theorem diff_perm_nil {L bs : List Ptr} (hnd : L.Nodup) (hp : bs.Perm L) : L.diff bs = [] := by
  apply List.eq_nil_iff_forall_not_mem.mpr
  intro a ha
  obtain ⟨h1, h2⟩ := hnd.mem_diff_iff.mp ha
  exact h2 (hp.mem_iff.mpr h1)

theorem wfl_nil {s : Arena} (hwf : WFL s []) : s.Head = NULL ∧ s.heap = [] :=
  ⟨chain_nil.mp hwf.1, heap_eq_nil _ (fun _ => hwf.look_none (by simp))⟩

theorem headerOf_handleOf (p : Ptr) : headerOf (handleOf p) = p := by
  simp [headerOf, handleOf]

/-! ## Main results -/

/-- C1 (allocation/release inverse).  Starting from the empty arena, any run of
`AllocTemporary` calls whose `malloc`s all succeed returns one handle per call, and
`FreeTemporary` called once on each handle, in any order, succeeds and leaves
`Head = NULL`, an empty live list and no live allocation; the pointers passed to
`free` are the blocks of the released handles in release order, without repetition,
and are a rearrangement of the allocated blocks: each is freed exactly once. -/
theorem C1_alloc_release_inverse (reqs : List (Nat × Storage))
    (hok : MallocsSucceed reqs Arena.init) :
    ∃ s1, allocMany reqs Arena.init = .ok (reqs.map (fun r => handleOf r.2.ptr), s1) ∧
      ∀ order : List Ptr, order.Perm (reqs.map (fun r => handleOf r.2.ptr)) →
        ∃ s2, freeMany order s1 = .ok s2 ∧ s2.Head = NULL ∧ liveList s2 = [] ∧ s2.heap = [] ∧
          s2.freed = order.map headerOf ∧ s2.freed.Nodup ∧
          s2.freed.Perm (reqs.map (fun r => r.2.ptr)) := by
  obtain ⟨s1, hrun, hwf1, hfreed1⟩ := allocMany_wfl reqs wfl_init hok
  refine ⟨s1, hrun, ?_⟩
  intro order hperm
  have hptrs : (reqs.map (fun r => handleOf r.2.ptr)).map headerOf = reqs.map (fun r => r.2.ptr) := by
    simp [Function.comp_def, headerOf_handleOf]
  have hbs : (order.map headerOf).Perm (reqs.map (fun r => r.2.ptr)) := by
    rw [← hptrs]; exact hperm.map headerOf
  have hnd : (order.map headerOf).Nodup := hbs.nodup_iff.mpr hok.2
  have hord : (order.map headerOf).map handleOf = order := by
    rw [List.map_map]
    conv_rhs => rw [← List.map_id order]
    apply List.map_congr_left
    intro p hp
    obtain ⟨r, _, hr⟩ := List.mem_map.mp (hperm.mem_iff.mp hp)
    simp [← hr, headerOf_handleOf]
  have hL : ((reqs.map (fun r => r.2.ptr)).reverse ++ []) = (reqs.map (fun r => r.2.ptr)).reverse := by
    simp
  rw [hL] at hwf1
  have hsub : ∀ b ∈ order.map headerOf, b ∈ (reqs.map (fun r => r.2.ptr)).reverse := by
    intro b hb
    exact List.mem_reverse.mpr (hbs.mem_iff.mp hb)
  obtain ⟨s2, hrun2, hwf2, hfreed2⟩ := freeMany_wfl (order.map headerOf) hwf1 hnd hsub
  rw [hord] at hrun2
  rw [diff_perm_nil hwf1.2.1 (hbs.trans (List.reverse_perm _).symm)] at hwf2
  obtain ⟨hH, hheap⟩ := wfl_nil hwf2
  have hfr : s2.freed = order.map headerOf := by
    rw [hfreed2, hfreed1]; rfl
  refine ⟨s2, hrun2, hH, hwf2.liveList_eq, hheap, hfr, ?_, ?_⟩
  · rw [hfr]; exact hnd
  · rw [hfr]; exact hbs

theorem C1_alloc_release_inverse_witness :
    ∃ s1, allocMany scenario Arena.init
        = .ok (scenario.map
            (fun r => handleOf r.2.ptr), s1) ∧
      ∀ order : List Ptr, order.Perm (scenario.map
          (fun r => handleOf r.2.ptr)) →
        ∃ s2, freeMany order s1 = .ok s2 ∧ s2.Head = NULL ∧ liveList s2 = [] ∧ s2.heap = [] ∧
          s2.freed = order.map headerOf ∧ s2.freed.Nodup ∧
          s2.freed.Perm (scenario.map
            (fun r => r.2.ptr)) :=
  C1_alloc_release_inverse scenario (by decide)

theorem alloc_on_empty {n : Nat} {m : Storage} (s2 : Arena) (hH : s2.Head = NULL)
    (hheap : s2.heap = []) (hfit : Fits n) (hm : m.ptr ≠ NULL) :
    ∃ s3, AllocTemporary n m s2 = .ok (handleOf m.ptr, s3) ∧ s3.Head = m.ptr ∧
      liveList s3 = [m.ptr] ∧
      s3.heap = [(m.ptr, { cap := n + sizeofAllocTempHeader, prev := NULL, next := NULL,
                           payload := List.replicate n 0 })] := by
  have hfresh : Fresh m s2 := ⟨hm, by rw [hheap]; rfl⟩
  refine ⟨_, alloc_eq_empty hfit hfresh hH, rfl, ?_, ?_⟩
  · simp [liveList, walk, look, hm, newBlock, hheap, hH]
  · simp [newBlock, hheap, hH]

/-- C2 (bulk release completeness).  After any run of `AllocTemporary` calls from a
well-formed arena (every `malloc` succeeding), `FreeAllTemporary` succeeds and leaves
`Head = NULL`, an empty live list and no live allocation; a following
`AllocTemporary` with a successful `malloc` succeeds, and the heap then holds
exactly the new block, alone in the live list, with `prev = next = NULL`. -/
theorem C2_bulk_release_completeness (s : Arena) (reqs : List (Nat × Storage))
    (hwf : WF s) (hok : MallocsSucceed reqs s) :
    ∃ s1 s2, allocMany reqs s = .ok (reqs.map (fun r => handleOf r.2.ptr), s1) ∧
      FreeAllTemporary s1 = .ok s2 ∧ s2.Head = NULL ∧ liveList s2 = [] ∧ s2.heap = [] ∧
      ∀ (n : Nat) (m : Storage), Fits n → m.ptr ≠ NULL →
        ∃ s3, AllocTemporary n m s2 = .ok (handleOf m.ptr, s3) ∧ s3.Head = m.ptr ∧
          liveList s3 = [m.ptr] ∧
          s3.heap = [(m.ptr, { cap := n + sizeofAllocTempHeader, prev := NULL, next := NULL,
                               payload := List.replicate n 0 })] := by
  obtain ⟨s1, hrun, hwf1, _⟩ := allocMany_wfl reqs hwf hok
  have hfa := freeAll_wfl hwf1
  refine ⟨s1, _, hrun, hfa, rfl, rfl, rfl, ?_⟩
  intro n m hfit hm
  exact alloc_on_empty _ rfl rfl hfit hm

theorem C2_bulk_release_completeness_witness :
    ∃ s1 s2, allocMany scenario Arena.init
        = .ok (scenario.map (fun r => handleOf r.2.ptr), s1) ∧
      FreeAllTemporary s1 = .ok s2 ∧ s2.Head = NULL ∧ liveList s2 = [] ∧ s2.heap = [] ∧
      ∀ (n : Nat) (m : Storage), Fits n → m.ptr ≠ NULL →
        ∃ s3, AllocTemporary n m s2 = .ok (handleOf m.ptr, s3) ∧ s3.Head = m.ptr ∧
          liveList s3 = [m.ptr] ∧
          s3.heap = [(m.ptr, { cap := n + sizeofAllocTempHeader, prev := NULL, next := NULL,
                               payload := List.replicate n 0 })] :=
  C2_bulk_release_completeness Arena.init scenario (by decide) (by decide)

/-- C3 (zero-fill contract).  For every size `n` whose request is representable in
`size_t`, including `n = 0`, and whatever bytes the storage returned by a successful
`malloc` holds, `AllocTemporary n` on a well-formed arena returns the handle just
after the header of the new block, the block is linked into the live list, and the
payload the handle denotes is exactly `n` bytes, all zero. -/
theorem C3_zero_fill (n : Nat) (m : Storage) (s : Arena) (hwf : WF s) (hfit : Fits n)
    (hfresh : Fresh m s) :
    ∃ s2, AllocTemporary n m s = .ok (handleOf m.ptr, s2) ∧ m.ptr ∈ liveList s2 ∧
      payloadAt s2 (handleOf m.ptr) = some (List.replicate n 0) ∧
      ∃ bytes, payloadAt s2 (handleOf m.ptr) = some bytes ∧ bytes.length = n ∧
        ∀ x ∈ bytes, x = 0 := by
  obtain ⟨s2, hrun, hwf2, _, _, hlook⟩ := alloc_wfl hwf hfit hfresh
  have hp : payloadAt s2 (handleOf m.ptr) = some (List.replicate n 0) := by
    simp [payloadAt, headerOf_handleOf, hlook, newBlock]
  refine ⟨s2, hrun, ?_, hp, _, hp, by simp, ?_⟩
  · rw [hwf2.liveList_eq]; exact List.mem_cons_self _ _
  · intro x hx; exact (List.mem_replicate.mp hx).2

theorem C3_zero_fill_witness :
    WF oneBlock ∧ Fits 8 ∧ Fresh (store 8192) oneBlock ∧
    (List.range 8).map (store 8192).junk = [1, 2, 3, 4, 5, 6, 7, 8] ∧
    ∃ s2, AllocTemporary 8 (store 8192) oneBlock = .ok (handleOf (store 8192).ptr, s2) ∧
      (store 8192).ptr ∈ liveList s2 ∧
      payloadAt s2 (handleOf (store 8192).ptr) = some (List.replicate 8 0) ∧
      ∃ bytes, payloadAt s2 (handleOf (store 8192).ptr) = some bytes ∧ bytes.length = 8 ∧
        ∀ x ∈ bytes, x = 0 :=
  ⟨by decide, by decide, by decide, by decide,
   C3_zero_fill 8 (store 8192) oneBlock (by decide) (by decide) (by decide)⟩

/-- C4 (single release removes exactly one block and keeps order).  For every
well-formed arena and every block `b` of its live list (wherever it stands),
`FreeTemporary` on `b`'s handle succeeds, the live list afterwards is the old one
with `b` erased, the other blocks keeping their relative order, the arena is still
well formed, `b` is no longer allocated and `free` was called on `b` only.  In the
scenario (allocate sizes 8, 0, 64, release the size-0 block) the list is then
the size-64 block followed by the size-8 block, and `FreeAllTemporary` empties it. -/
theorem C4_single_release :
    (∀ (s : Arena) (b : Ptr), WF s → b ∈ liveList s →
      ∃ s2, FreeTemporary (handleOf b) s = .ok s2 ∧ WF s2 ∧
        liveList s2 = (liveList s).erase b ∧
        liveList s2 = (liveList s).filter (fun x => decide (x ≠ b)) ∧
        look b s2.heap = none ∧ s2.freed = s.freed ++ [b]) ∧
    (∃ s1 s2 s3, allocMany scenario Arena.init = .ok ([4112, 8208, 12304], s1) ∧
      liveList s1 = [12288, 8192, 4096] ∧
      (look 12288 s1.heap).map (fun c => c.cap) = some (64 + sizeofAllocTempHeader) ∧
      (look 8192 s1.heap).map (fun c => c.cap) = some (0 + sizeofAllocTempHeader) ∧
      (look 4096 s1.heap).map (fun c => c.cap) = some (8 + sizeofAllocTempHeader) ∧
      FreeTemporary 8208 s1 = .ok s2 ∧ liveList s2 = [12288, 4096] ∧
      FreeAllTemporary s2 = .ok s3 ∧ liveList s3 = [] ∧ s3.Head = NULL ∧ s3.heap = []) := by
  constructor
  · intro s b hwf hb
    obtain ⟨bb, s2, _, hrun, hwf2, _, hfreed, hlook⟩ := free_wfl hwf hb
    refine ⟨s2, hrun, hwf2.wf, hwf2.liveList_eq, ?_, by simp [hlook], hfreed⟩
    rw [hwf2.liveList_eq, List.Nodup.erase_eq_filter hwf.2.1]
    congr 1
    funext x
    by_cases h : x = b <;> simp [h]
  · exact ⟨_, _, _, rfl, rfl, rfl, rfl, rfl, rfl, rfl, rfl, rfl, rfl, rfl⟩

theorem C4_single_release_witness :
    ∃ s2, FreeTemporary (handleOf 4096)
        { Head := 4096, heap := [(4096, newBlock 8 Arena.init)], freed := [] } = .ok s2 ∧
      WF s2 ∧
      liveList s2 = (liveList
        { Head := 4096, heap := [(4096, newBlock 8 Arena.init)], freed := [] }).erase 4096 ∧
      liveList s2 = (liveList
        { Head := 4096, heap := [(4096, newBlock 8 Arena.init)], freed := [] }).filter
          (fun x => decide (x ≠ 4096)) ∧
      look 4096 s2.heap = none ∧ s2.freed = [] ++ [4096] :=
  C4_single_release.1 { Head := 4096, heap := [(4096, newBlock 8 Arena.init)], freed := [] }
    4096 (by decide) (by decide)

/-- C8 (idempotent empty release).  `FreeAllTemporary` on an arena with
`Head = NULL` returns normally and changes nothing: nothing is freed and `Head`
stays `NULL`.  Hence on every well-formed arena a second `FreeAllTemporary` right
after a first one leaves the state the first one produced. -/
theorem C8_idempotent_empty_release :
    (∀ s : Arena, s.Head = NULL → FreeAllTemporary s = .ok s) ∧
    (∀ s : Arena, WF s → ∃ s1, FreeAllTemporary s = .ok s1 ∧ s1.Head = NULL ∧
      FreeAllTemporary s1 = .ok s1) := by
  have h1 : ∀ s : Arena, s.Head = NULL → FreeAllTemporary s = .ok s := by
    intro s hH
    obtain ⟨H, heap, freed⟩ := s
    simp only at hH
    subst hH
    simp [FreeAllTemporary, freeAllLoop, bind, Except.bind, pure, Except.pure]
  refine ⟨h1, ?_⟩
  intro s hwf
  exact ⟨_, freeAll_wfl hwf, rfl, h1 _ rfl⟩

theorem C8_idempotent_empty_release_witness :
    FreeAllTemporary Arena.init = .ok Arena.init ∧
    ∃ s1, FreeAllTemporary { Head := 4096, heap := [(4096, newBlock 8 Arena.init)], freed := [] }
        = .ok s1 ∧ s1.Head = NULL ∧ FreeAllTemporary s1 = .ok s1 :=
  ⟨C8_idempotent_empty_release.1 Arena.init rfl,
   C8_idempotent_empty_release.2
    { Head := 4096, heap := [(4096, newBlock 8 Arena.init)], freed := [] } (by decide)⟩

/-! ## Well-formedness in the specification's words -/

/-- C7 (handle validity until release).  For a live block `b` of a well-formed
arena, any run of further `AllocTemporary` calls (with successful `malloc`s) and
`FreeTemporary` calls on handles of other live blocks returns normally, keeps the
arena well formed, keeps `b` allocated and in the live list, never passes `b` to
`free`, and leaves the payload bytes of `b` unchanged.  An allocation changes no
block that was live before it except the `prev` field of the old head; a release
of block `x` changes no other block except the `prev` field of `x`'s successor and
the `next` field of `x`'s predecessor. -/
theorem C7_handle_validity :
    (∀ (b : Ptr) (ops : List Op) (s : Arena), WF s → b ∈ liveList s → AllowedRun b ops s →
      ∃ s2 fr, run ops s = .ok s2 ∧ WF s2 ∧ b ∈ liveList s2 ∧
        (look b s2.heap).isSome = true ∧
        payloadAt s2 (handleOf b) = payloadAt s (handleOf b) ∧
        s2.freed = s.freed ++ fr ∧ b ∉ fr) ∧
    (∀ (s : Arena) (n : Nat) (m : Storage), WF s → Fits n → Fresh m s →
      ∃ s2, AllocTemporary n m s = .ok (handleOf m.ptr, s2) ∧
        ∀ q c, look q s.heap = some c →
          look q s2.heap = some (if q = s.Head then { c with prev := m.ptr } else c)) ∧
    (∀ (s : Arena) (x : Ptr), WF s → x ∈ liveList s →
      ∃ bx s2, look x s.heap = some bx ∧ FreeTemporary (handleOf x) s = .ok s2 ∧
        ∀ q c, q ≠ x → look q s.heap = some c →
          look q s2.heap = some
            (if q = bx.next then { c with prev := bx.prev }
             else if q = bx.prev then { c with next := bx.next } else c)) := by
  have hA : ∀ (s : Arena) (n : Nat) (m : Storage), WF s → Fits n → Fresh m s →
      ∃ s2, AllocTemporary n m s = .ok (handleOf m.ptr, s2) ∧ WF s2 ∧
        liveList s2 = m.ptr :: liveList s ∧ s2.freed = s.freed ∧
        ∀ q c, look q s.heap = some c →
          look q s2.heap = some (if q = s.Head then { c with prev := m.ptr } else c) := by
    intro s n m hwf hfit hfresh
    obtain ⟨s2, hrun, hwf2, _, hfreed, hlook⟩ := alloc_wfl hwf hfit hfresh
    refine ⟨s2, hrun, hwf2.wf, hwf2.liveList_eq, hfreed, ?_⟩
    intro q c hc
    have hq : q ≠ m.ptr := by
      intro h; rw [h, hfresh.2] at hc; cases hc
    rw [hlook]
    by_cases h2 : q = s.Head
    · subst h2; simp [hq, hc]
    · simp [hq, h2, hc]
  have hF : ∀ (s : Arena) (x : Ptr), WF s → x ∈ liveList s →
      ∃ bx s2, look x s.heap = some bx ∧ FreeTemporary (handleOf x) s = .ok s2 ∧ WF s2 ∧
        liveList s2 = (liveList s).erase x ∧ s2.freed = s.freed ++ [x] ∧
        ∀ q c, q ≠ x → look q s.heap = some c →
          look q s2.heap = some
            (if q = bx.next then { c with prev := bx.prev }
             else if q = bx.prev then { c with next := bx.next } else c) := by
    intro s x hwf hx
    obtain ⟨bx, s2, hbx, hrun, hwf2, _, hfreed, hlook⟩ := free_wfl hwf hx
    refine ⟨bx, s2, hbx, hrun, hwf2.wf, hwf2.liveList_eq, hfreed, ?_⟩
    intro q c hq hc
    rw [hlook]
    by_cases h1 : q = bx.next
    · subst h1; simp [hq, hc]
    · by_cases h2 : q = bx.prev
      · subst h2; simp [hq, h1, hc]
      · simp [hq, h1, h2, hc]
  refine ⟨?_, ?_, ?_⟩
  · intro b ops
    induction ops with
    | nil =>
      intro s hwf hb _
      obtain ⟨_, c, hc, _⟩ := chain_mem hwf.1 b hb
      exact ⟨s, [], rfl, hwf, hb, by simp [hc], rfl, by simp, by simp⟩
    | cons op rest ih =>
      intro s hwf hb hal
      obtain ⟨_, c, hc, _⟩ := chain_mem hwf.1 b hb
      cases op with
      | alloc n m =>
        obtain ⟨⟨hfit, hfresh⟩, hrest⟩ := hal
        obtain ⟨s1, hrun1, hwf1, hlive1, hfreed1, hframe1⟩ := hA s n m hwf hfit hfresh
        have hstep : step (.alloc n m) s = .ok s1 := by
          simp [step, hrun1, Except.map]
        rw [hstep] at hrest
        have hb1 : b ∈ liveList s1 := by rw [hlive1]; exact List.mem_cons_of_mem _ hb
        obtain ⟨s2, fr, hrun2, hwf2, hb2, hsome, hpay, hfreed2, hnot⟩ := ih s1 hwf1 hb1 hrest
        refine ⟨s2, fr, ?_, hwf2, hb2, hsome, ?_, by rw [hfreed2, hfreed1], hnot⟩
        · simp [run, hstep, bind, Except.bind, hrun2]
        · rw [hpay]
          simp only [payloadAt, headerOf_handleOf]
          rw [hframe1 b c hc, hc]
          simp only [Option.map_some']
          split_ifs <;> rfl
      | free p =>
        obtain ⟨⟨hx, hxb, hp⟩, hrest⟩ := hal
        obtain ⟨bx, s1, _, hrun1, hwf1, hlive1, hfreed1, hframe1⟩ := hF s (headerOf p) hwf hx
        rw [← hp] at hrun1
        have hstep : step (.free p) s = .ok s1 := by
          simp [step, hrun1]
        rw [hstep] at hrest
        have hb1 : b ∈ liveList s1 := by
          rw [hlive1]; exact (List.mem_erase_of_ne (Ne.symm hxb)).mpr hb
        obtain ⟨s2, fr, hrun2, hwf2, hb2, hsome, hpay, hfreed2, hnot⟩ := ih s1 hwf1 hb1 hrest
        refine ⟨s2, headerOf p :: fr, ?_, hwf2, hb2, hsome, ?_, ?_, ?_⟩
        · simp [run, hstep, bind, Except.bind, hrun2]
        · rw [hpay]
          simp only [payloadAt, headerOf_handleOf]
          rw [hframe1 b c (Ne.symm hxb) hc, hc]
          simp only [Option.map_some']
          split_ifs <;> rfl
        · rw [hfreed2, hfreed1]; simp
        · simp [hnot, Ne.symm hxb]
  · intro s n m hwf hfit hfresh
    obtain ⟨s2, h1, _, _, _, h5⟩ := hA s n m hwf hfit hfresh
    exact ⟨s2, h1, h5⟩
  · intro s x hwf hx
    obtain ⟨bx, s2, h0, h1, _, _, _, h5⟩ := hF s x hwf hx
    exact ⟨bx, s2, h0, h1, h5⟩

theorem C7_handle_validity_witness :
    ∃ s2 fr, run laterOps
        { Head := 4096, heap := [(4096, newBlock 8 Arena.init)], freed := [] } = .ok s2 ∧
      WF s2 ∧ 4096 ∈ liveList s2 ∧ (look 4096 s2.heap).isSome = true ∧
      payloadAt s2 (handleOf 4096) = payloadAt
        { Head := 4096, heap := [(4096, newBlock 8 Arena.init)], freed := [] } (handleOf 4096) ∧
      s2.freed = [] ++ fr ∧ 4096 ∉ fr :=
  C7_handle_validity.1 4096 laterOps
    { Head := 4096, heap := [(4096, newBlock 8 Arena.init)], freed := [] }
    (by decide) (by decide) (by decide)

/-! ## Paths -/

theorem cstring_c_str_of_not_mem {f : Bytes} (h : 0 ∉ f) : cstring (c_str f) = f := by
  induction f with
  | nil => simp [cstring, c_str]
  | cons x t ih =>
    have hx : x ≠ 0 := fun hx => h (by simp [hx])
    have ht : 0 ∉ t := fun ht => h (List.mem_cons_of_mem _ ht)
    have := ih ht
    simp [cstring, c_str, hx] at this ⊢
    exact this

theorem strlen_c_str_lt_of_mem {f : Bytes} (h : 0 ∈ f) : strlen (c_str f) < f.length := by
  induction f with
  | nil => simp at h
  | cons x t ih =>
    by_cases hx : x = 0
    · simp [strlen, cstring, c_str, hx]
    · have ht : 0 ∈ t := by
        rcases List.mem_cons.mp h with h | h
        · exact absurd h.symm hx
        · exact h
      have := ih ht
      simp [strlen, cstring, c_str, hx] at this ⊢
      exact this

theorem guard_iff (f : Bytes) : f.length = strlen (c_str f) ↔ 0 ∉ f := by
  constructor
  · intro h hmem
    have := strlen_c_str_lt_of_mem hmem
    omega
  · intro h
    simp [strlen, cstring_c_str_of_not_mem h]

/-- C9 (arena allocation failure).  When `malloc` returns `NULL`, `AllocTemporary`
does not reach the reporter: for every size and every state its first statement
`h->prev = NULL` writes through the null pointer, which is undefined behaviour, so
the run is not the report-then-terminate of `assert_failure`.  The sibling
`MemAlloc` does check: with the same outcome of `malloc` it stops in
`assert_failure` with the message "Cannot allocate memory". -/
theorem C9_alloc_failure_unchecked (P : Platform) (n prev next : Nat) (junk : Nat → Nat)
    (s : Arena) :
    AllocTemporary n { ptr := NULL, prev := prev, next := next, junk := junk } s
      = .error (.undefined .nullDeref) ∧
    (∀ report, AllocTemporary n { ptr := NULL, prev := prev, next := next, junk := junk } s
      ≠ .error (.aborted report)) ∧
    MemAlloc P n { ptr := NULL, prev := prev, next := next, junk := junk } s
      = .error (assert_failure P P.file (P.lineOf "MemAlloc") "MemAlloc" "p != NULL"
          "Cannot allocate memory") := by
  have h : AllocTemporary n { ptr := NULL, prev := prev, next := next, junk := junk } s
      = .error (.undefined .nullDeref) := by
    simp [AllocTemporary, malloc, Arena.storePrev, Arena.deref, Except.map, bind, Except.bind]
  refine ⟨h, ?_, ?_⟩
  · intro report; rw [h]; simp
  · simp [MemAlloc, ssassert, bind, Except.bind]

/-- C10 (embedded-terminator guard).  The guard `filename.length() ==
strlen(filename.c_str())` holds exactly when the string has no NUL byte.  `ssfopen`
calls `fopen` exactly then, once, with the entire string as the name, and returns
what `fopen` returns; for a string with an embedded NUL it calls no filesystem
primitive and stops in `assert_failure`.  The same holds for `ssremove` and
`remove`.  For "good\0bad" no primitive is called. -/
theorem C10_embedded_terminator_guard (P : Platform) (filename mode : Bytes) :
    (filename.length = strlen (c_str filename) ↔ 0 ∉ filename) ∧
    ssfopen P filename mode =
      (if 0 ∈ filename then
        ([], .error (assert_failure P P.file (P.lineOf "ssfopen") "ssfopen"
          "filename.length() == strlen(filename.c_str())"
          "Unexpected null byte in middle of a path"))
       else ([Call.fopen filename (cstring mode)], .ok (P.fopen filename (cstring mode)))) ∧
    ssremove P filename =
      (if 0 ∈ filename then
        ([], .error (assert_failure P P.file (P.lineOf "ssremove") "ssremove"
          "filename.length() == strlen(filename.c_str())"
          "Unexpected null byte in middle of a path"))
       else ([Call.remove filename], .ok ())) ∧
    (ssfopen P goodNulBad mode).1 = [] ∧ (ssremove P goodNulBad).1 = [] ∧
    (ssfopen demoPlatform goodTxt modeR) = ([Call.fopen goodTxt modeR], .ok 24576) := by
  have hg := guard_iff filename
  refine ⟨hg, ?_, ?_, ?_, ?_, ?_⟩
  · by_cases h : 0 ∈ filename
    · have hne : ¬ filename.length = strlen (c_str filename) := fun e => (hg.mp e) h
      simp [ssfopen, ssassert, h, hne]
    · have he : filename.length = strlen (c_str filename) := hg.mpr h
      simp [ssfopen, ssassert, h, ← he, cstring_c_str_of_not_mem h]
  · by_cases h : 0 ∈ filename
    · have hne : ¬ filename.length = strlen (c_str filename) := fun e => (hg.mp e) h
      simp [ssremove, ssassert, h, hne]
    · have he : filename.length = strlen (c_str filename) := hg.mpr h
      simp [ssremove, ssassert, h, ← he, cstring_c_str_of_not_mem h]
  · rfl
  · rfl
  · rfl

/-! ## Path equality -/

/-- C12 (byte-for-byte path equality).  Without `__APPLE__`, `PathEqual a b` holds
exactly when `a` and `b` have the same length and the same byte at every position,
embedded NUL bytes included; it is reflexive, symmetric and transitive;
`PathEqual("a/b", "a/b")` holds and `PathEqual("Foo.txt", "foo.txt")` does not. -/
theorem C12_path_equal_bytewise :
    (∀ a b : Bytes, PathEqual false a b = true ↔
      a.length = b.length ∧ ∀ i : Nat, a[i]? = b[i]?) ∧
    (∀ a : Bytes, PathEqual false a a = true) ∧
    (∀ a b : Bytes, PathEqual false a b = true → PathEqual false b a = true) ∧
    (∀ a b c : Bytes, PathEqual false a b = true → PathEqual false b c = true →
      PathEqual false a c = true) ∧
    PathEqual false aSlashB aSlashB = true ∧ PathEqual false fooUpper fooLower = false ∧
    PathEqual false aNulB aNulC = false := by
  have heq : ∀ a b : Bytes, PathEqual false a b = true ↔ a = b := by
    intro a b; simp [PathEqual]
  refine ⟨?_, ?_, ?_, ?_, by decide, by decide, by decide⟩
  · intro a b
    rw [heq]
    constructor
    · intro h; subst h; exact ⟨rfl, fun _ => rfl⟩
    · intro h; exact List.ext_getElem? h.2
  · intro a; exact (heq a a).mpr rfl
  · intro a b h; exact (heq b a).mpr ((heq a b).mp h).symm
  · intro a b c h1 h2; exact (heq a c).mpr (((heq a b).mp h1).trans ((heq b c).mp h2))

theorem C12_path_equal_bytewise_witness :
    PathEqual false aSlashB aSlashB = true ∧ PathEqual false aSlashB aSlashB = true :=
  ⟨C12_path_equal_bytewise.2.2.1 aSlashB aSlashB (by decide),
   C12_path_equal_bytewise.2.2.2.1 aSlashB aSlashB aSlashB (by decide) (by decide)⟩

theorem tolower_eq_zero {c : Nat} : tolower c = 0 ↔ c = 0 := by
  unfold tolower
  by_cases h : 65 ≤ c ∧ c ≤ 90
  · rw [if_pos h]
    constructor <;> intro h2 <;> omega
  · rw [if_neg h]

theorem cstring_nil : cstring [] = [] := rfl

theorem cstring_cons (x : Nat) (t : Bytes) :
    cstring (x :: t) = if x = 0 then [] else x :: cstring t := by
  by_cases hx : x = 0 <;> simp [cstring, hx]

theorem cstring_c_str (a : Bytes) : cstring (c_str a) = cstring a := by
  induction a with
  | nil => simp [cstring, c_str]
  | cons x t ih =>
    have h : c_str (x :: t) = x :: c_str t := rfl
    rw [h, cstring_cons, cstring_cons, ih]

theorem c_str_cons (x : Nat) (t : Bytes) : c_str (x :: t) = x :: c_str t := rfl

theorem c_str_nil : c_str [] = [0] := rfl

/-- What `strcasecmp` decides on two NUL-terminated buffers: equality, after case
folding, of the parts before the first NUL. -/
theorem strcasecmp_eq_zero (a : Bytes) :
    ∀ b : Bytes, strcasecmp (c_str a) (c_str b) = 0 ↔
      (cstring a).map tolower = (cstring b).map tolower := by
  have h0 : tolower 0 = 0 := rfl
  induction a with
  | nil =>
    intro b
    cases b with
    | nil => simp [c_str_nil, strcasecmp, cstring_nil]
    | cons y t =>
      rw [c_str_nil, c_str_cons, cstring_nil, cstring_cons]
      by_cases hy : y = 0
      · simp [strcasecmp, hy]
      · have h1 : tolower y ≠ 0 := fun h => hy (tolower_eq_zero.mp h)
        simp [strcasecmp, hy, h0, h1, Ne.symm h1]
  | cons x s ih =>
    intro b
    cases b with
    | nil =>
      rw [c_str_nil, c_str_cons, cstring_nil, cstring_cons]
      by_cases hx : x = 0
      · simp [strcasecmp, hx]
      · have h1 : tolower x ≠ 0 := fun h => hx (tolower_eq_zero.mp h)
        simp [strcasecmp, hx, h0, h1]
    | cons y t =>
      have ih2 := ih t
      rw [c_str_cons, c_str_cons, cstring_cons, cstring_cons]
      by_cases hxy : tolower x = tolower y
      · by_cases hx : x = 0
        · have hy : y = 0 := by
            rw [hx] at hxy
            exact tolower_eq_zero.mp hxy.symm
          simp [strcasecmp, hx, hy]
        · have hy : y ≠ 0 := by
            intro hy
            rw [hy] at hxy
            exact hx (tolower_eq_zero.mp hxy)
          simp only [strcasecmp, hxy, ne_eq, not_true_eq_false, if_false, hx, hy, ih2,
            List.map_cons, List.cons.injEq, true_and]
      · have hsub : (tolower x : Int) - (tolower y : Int) ≠ 0 := by omega
        simp only [strcasecmp, ne_eq, hxy, not_false_eq_true, if_true]
        constructor
        · intro h; exact absurd h hsub
        · intro h
          by_cases hx : x = 0
          · by_cases hy : y = 0
            · exact absurd (by rw [hx, hy]) hxy
            · simp [hx, hy] at h
          · by_cases hy : y = 0
            · simp [hx, hy] at h
            · simp [hx, hy] at h
              exact absurd h.1 hxy

/-- With `__APPLE__`, `PathEqual` compares, after case folding, only the parts of
the two strings before their first NUL byte; for strings without NUL bytes that is
the whole strings. -/
theorem pathEqual_apple_iff (a b : Bytes) :
    (PathEqual true a b = true ↔ (cstring a).map tolower = (cstring b).map tolower) ∧
    (0 ∉ a → 0 ∉ b →
      (PathEqual true a b = true ↔ a.length = b.length ∧ a.map tolower = b.map tolower)) := by
  have h1 : PathEqual true a b = true ↔ (cstring a).map tolower = (cstring b).map tolower := by
    simp [PathEqual, strcasecmp_eq_zero]
  refine ⟨h1, ?_⟩
  intro ha hb
  have ea : cstring a = a := by rw [← cstring_c_str, cstring_c_str_of_not_mem ha]
  have eb : cstring b = b := by rw [← cstring_c_str, cstring_c_str_of_not_mem hb]
  rw [h1, ea, eb]
  constructor
  · intro h
    refine ⟨?_, h⟩
    have := congrArg List.length h
    simpa using this
  · intro h; exact h.2

/-- C13 (case-insensitive path equality).  With `__APPLE__`,
`PathEqual("Foo.txt", "foo.txt")` holds, but so does `PathEqual("a\0b", "a\0c")`:
the two strings have the same length and differ in their last byte, `b` against
`c`, which is not a difference of letter case, and `strcasecmp` stops at the NUL
before it.  Without `__APPLE__` the same two strings are unequal. -/
theorem C13_path_equal_apple_stops_at_nul :
    PathEqual true fooUpper fooLower = true ∧
    PathEqual true aNulB aNulC = true ∧
    aNulB.length = aNulC.length ∧
    aNulB.map tolower ≠ aNulC.map tolower ∧
    PathEqual false aNulB aNulC = false := by
  decide

/-! ## Malformed paths, removal, persistent allocation -/

/-- C11, as stated, fails: for the path "good\0bad" neither `ssfopen` nor `ssremove`
returns to its caller; both stop in `assert_failure`, which ends in `abort()`. -/
theorem C11_malformed_path_counterexample :
    (∃ report, (ssfopen demoPlatform goodNulBad modeR).2 = .error (.aborted report)) ∧
    (∃ report, (ssremove demoPlatform goodNulBad).2 = .error (.aborted report)) ∧
    ¬ (∃ v, (ssfopen demoPlatform goodNulBad modeR).2 = .ok v) ∧
    ¬ (∃ u, (ssremove demoPlatform goodNulBad).2 = .ok u) := by
  refine ⟨⟨_, rfl⟩, ⟨_, rfl⟩, ?_, ?_⟩
  · rintro ⟨v, hv⟩
    have h : (ssfopen demoPlatform goodNulBad modeR).2 =
        .error (assert_failure demoPlatform demoPlatform.file (demoPlatform.lineOf "ssfopen")
          "ssfopen" "filename.length() == strlen(filename.c_str())"
          "Unexpected null byte in middle of a path") := rfl
    rw [h] at hv
    cases hv
  · rintro ⟨u, hu⟩
    have h : (ssremove demoPlatform goodNulBad).2 =
        .error (assert_failure demoPlatform demoPlatform.file (demoPlatform.lineOf "ssremove")
          "ssremove" "filename.length() == strlen(filename.c_str())"
          "Unexpected null byte in middle of a path") := rfl
    rw [h] at hu
    cases hu

/-- C11 (amended).  For every path string containing an embedded NUL byte,
`ssfopen` and `ssremove` call no filesystem primitive and stop in `assert_failure`
with the message "Unexpected null byte in middle of a path": the failure is fatal
and control does not return to the caller. -/
theorem C11_malformed_path_is_fatal (P : Platform) (filename mode : Bytes)
    (h : 0 ∈ filename) :
    ssfopen P filename mode =
      ([], .error (assert_failure P P.file (P.lineOf "ssfopen") "ssfopen"
        "filename.length() == strlen(filename.c_str())"
        "Unexpected null byte in middle of a path")) ∧
    ssremove P filename =
      ([], .error (assert_failure P P.file (P.lineOf "ssremove") "ssremove"
        "filename.length() == strlen(filename.c_str())"
        "Unexpected null byte in middle of a path")) ∧
    (∀ v, (ssfopen P filename mode).2 ≠ .ok v) ∧
    (∀ u, (ssremove P filename).2 ≠ .ok u) := by
  have hne : ¬ filename.length = strlen (c_str filename) := fun e => ((guard_iff filename).mp e) h
  have h1 : ssfopen P filename mode =
      ([], .error (assert_failure P P.file (P.lineOf "ssfopen") "ssfopen"
        "filename.length() == strlen(filename.c_str())"
        "Unexpected null byte in middle of a path")) := by
    simp [ssfopen, ssassert, hne]
  have h2 : ssremove P filename =
      ([], .error (assert_failure P P.file (P.lineOf "ssremove") "ssremove"
        "filename.length() == strlen(filename.c_str())"
        "Unexpected null byte in middle of a path")) := by
    simp [ssremove, ssassert, hne]
  refine ⟨h1, h2, ?_, ?_⟩
  · intro v hv; rw [h1] at hv; cases hv
  · intro u hu; rw [h2] at hu; cases hu

theorem C11_malformed_path_is_fatal_witness :
    ssfopen demoPlatform goodNulBad modeR =
      ([], .error (assert_failure demoPlatform demoPlatform.file
        (demoPlatform.lineOf "ssfopen") "ssfopen"
        "filename.length() == strlen(filename.c_str())"
        "Unexpected null byte in middle of a path")) ∧
    ssremove demoPlatform goodNulBad =
      ([], .error (assert_failure demoPlatform demoPlatform.file
        (demoPlatform.lineOf "ssremove") "ssremove"
        "filename.length() == strlen(filename.c_str())"
        "Unexpected null byte in middle of a path")) ∧
    (∀ v, (ssfopen demoPlatform goodNulBad modeR).2 ≠ .ok v) ∧
    (∀ u, (ssremove demoPlatform goodNulBad).2 ≠ .ok u) :=
  C11_malformed_path_is_fatal demoPlatform goodNulBad modeR (by decide)

/-- C14 (persistent allocator is fail-fast).  For every size, `MemAlloc` returns to
its caller exactly when `malloc` returned a non-null pointer, and then returns that
pointer, which is therefore non-null, with the arena state (`Head` and the arena's
blocks) as it was; when `malloc` returned `NULL` it stops in `assert_failure` with
the message "Cannot allocate memory" and returns nothing. -/
theorem C14_memalloc_fail_fast (P : Platform) (n : Nat) (m : Storage) (s : Arena) :
    MemAlloc P n m s =
      (if m.ptr = NULL then
        .error (assert_failure P P.file (P.lineOf "MemAlloc") "MemAlloc" "p != NULL"
          "Cannot allocate memory")
       else .ok (m.ptr, s)) ∧
    ((∃ r, MemAlloc P n m s = .ok r) ↔ m.ptr ≠ NULL) ∧
    (∀ p s2, MemAlloc P n m s = .ok (p, s2) → p = m.ptr ∧ p ≠ NULL ∧ s2 = s ∧
      s2.Head = s.Head) := by
  have h1 : MemAlloc P n m s =
      (if m.ptr = NULL then
        .error (assert_failure P P.file (P.lineOf "MemAlloc") "MemAlloc" "p != NULL"
          "Cannot allocate memory")
       else .ok (m.ptr, s)) := by
    by_cases h : m.ptr = NULL
    · simp [MemAlloc, ssassert, h, bind, Except.bind]
    · simp [MemAlloc, ssassert, h, bind, Except.bind, pure, Except.pure]
  refine ⟨h1, ?_, ?_⟩
  · rw [h1]
    by_cases h : m.ptr = NULL
    · simp [h]
    · simp [h]
  · intro p s2 hp
    rw [h1] at hp
    by_cases h : m.ptr = NULL
    · simp [h] at hp
    · simp only [h, if_false, Except.ok.injEq, Prod.mk.injEq] at hp
      obtain ⟨hp1, hs⟩ := hp
      subst hp1; subst hs
      exact ⟨rfl, h, rfl, rfl⟩

theorem C14_memalloc_fail_fast_witness :
    (24576 : Ptr) = (store 24576).ptr ∧ (24576 : Ptr) ≠ NULL ∧ Arena.init = Arena.init ∧
      Arena.init.Head = Arena.init.Head :=
  (C14_memalloc_fail_fast demoPlatform 32 (store 24576) Arena.init).2.2 24576 Arena.init rfl

/-- C18, as stated, fails: nothing `ssremove` hands back depends on what `remove`
returned.  Two environments whose `remove` returns `-1` and `0` for "good.txt" give
the same outcome, so no caller can read the primitive's result off it. -/
theorem C18_remove_result_counterexample :
    ssremove demoPlatform goodTxt = ([Call.remove goodTxt], .ok ()) ∧
    demoPlatform.remove goodTxt = -1 ∧
    ¬ (∃ g : List Call × Except Stop Unit → Int,
        ∀ (P : Platform) (f : Bytes), 0 ∉ f → g (ssremove P f) = P.remove f) := by
  refine ⟨rfl, rfl, ?_⟩
  rintro ⟨g, hg⟩
  have h1 := hg demoPlatform goodTxt (by decide)
  have h2 := hg { demoPlatform with remove := fun _ => 0 } goodTxt (by decide)
  have e : ssremove { demoPlatform with remove := fun _ => 0 } goodTxt
      = ssremove demoPlatform goodTxt := rfl
  rw [e, h1] at h2
  have h3 : demoPlatform.remove goodTxt = -1 := rfl
  rw [h3] at h2
  simp at h2

/-- C18 (amended).  For every path string without an embedded NUL byte, `ssremove`
calls the platform `remove` exactly once, with the full path, drops the value it
returns and returns normally to its caller (the function is `void`); a failure of
`remove`, such as a file that does not exist, is therefore never escalated. -/
theorem C18_remove_result_dropped (P : Platform) (filename : Bytes) (h : 0 ∉ filename) :
    ssremove P filename = ([Call.remove filename], .ok ()) := by
  have he : filename.length = strlen (c_str filename) := (guard_iff filename).mpr h
  simp [ssremove, ssassert, ← he, cstring_c_str_of_not_mem h]

theorem C18_remove_result_dropped_witness :
    ssremove demoPlatform goodTxt = ([Call.remove goodTxt], .ok ()) :=
  C18_remove_result_dropped demoPlatform goodTxt (by decide)

/-! ## The fatal report -/

/-- C15 (fatal report shape).  For every call site, condition text and message,
`assert_failure` does not return: the run ends aborted, and what was written to
`stderr` is, in order, the header line with file, line and function, the line with
the message and the condition text, the line "Backtrace:", and then one line per
captured frame.  The captured frames are the first `k` return addresses of the
stack, `k` at most the capacity 1024; line `i` (from 0) shows the number `i` and the
resolved symbol of frame `i` when symbol resolution succeeded, its raw address
otherwise. -/
theorem C15_fatal_report_shape (P : Platform) (file : String) (line : Nat)
    (function condition message : String) :
    (assert_failure demoPlatform "unixutil.cpp" 133 "MemAlloc" "p != NULL"
        "Cannot allocate memory" =
      .aborted ["File unixutil.cpp, line 133, function MemAlloc:\n",
                "Assertion " ++ quote ++ "Cannot allocate memory" ++ quote ++
                  " failed: ((p != NULL) == false).\n",
                "Backtrace:\n", " 0: 4198400\n", " 1: 4198912\n"]) ∧
    ∃ frames : List String,
      assert_failure P file line function condition message =
        .aborted (["File " ++ file ++ ", line " ++ toString line ++ ", function " ++
                     function ++ ":\n",
                   "Assertion " ++ quote ++ message ++ quote ++ " failed: ((" ++ condition ++
                     ") == false).\n",
                   "Backtrace:\n"] ++ frames) ∧
      frames.length = min maxFrames P.stack.length ∧ frames.length ≤ 1024 ∧
      ∀ i : Nat, i < frames.length →
        frames[i]? = (P.stack[i]?).map (fun p =>
          fmt2zu i ++ ": " ++
            (match P.symbols with
             | some syms => syms p
             | none => P.showPtr p) ++ "\n") := by
  refine ⟨by decide, ?_⟩
  cases hs : P.symbols with
  | some syms =>
    refine ⟨(P.stack.take maxFrames).enum.map (fun ip => fmt2zu ip.1 ++ ": " ++ syms ip.2 ++ "\n"),
      ?_, ?_, ?_, ?_⟩
    · simp [assert_failure, hs]
    · simp [List.enum_length]
    · simp [List.enum_length, maxFrames]
    · intro i hi
      have hi2 : i < maxFrames := by
        simp [List.enum_length] at hi; exact hi.1
      simp [List.getElem?_map, List.getElem?_enum, List.getElem?_take, hi2]
      cases P.stack[i]? <;> simp
  | none =>
    refine ⟨(P.stack.take maxFrames).enum.map
      (fun ip => fmt2zu ip.1 ++ ": " ++ P.showPtr ip.2 ++ "\n"), ?_, ?_, ?_, ?_⟩
    · simp [assert_failure, hs]
    · simp [List.enum_length]
    · simp [List.enum_length, maxFrames]
    · intro i hi
      have hi2 : i < maxFrames := by
        simp [List.enum_length] at hi; exact hi.1
      simp [List.getElem?_map, List.getElem?_enum, List.getElem?_take, hi2]
      cases P.stack[i]? <;> simp


/-! ## Unchecked inputs of the arena -/

/-- C17, as stated, fails: after one allocation and its release, a second
`FreeTemporary` on the same handle is not answered with a reported error; it reads
`h->prev` from the block that was already freed.  The same holds for a handle that
`AllocTemporary` never returned. -/
theorem C17_invalid_release_counterexample :
    ((AllocTemporary 8 (store 4096) Arena.init).bind (fun r => FreeTemporary r.1 r.2)
      = .ok { Head := NULL, heap := [], freed := [4096] }) ∧
    FreeTemporary 4112 { Head := NULL, heap := [], freed := [4096] }
      = .error (.undefined .wildPointer) ∧
    FreeTemporary 12345 Arena.init = .error (.undefined .wildPointer) ∧
    ¬ (∃ report, FreeTemporary 4112 { Head := NULL, heap := [], freed := [4096] }
        = .error (.aborted report)) := by
  have h : FreeTemporary 4112 { Head := NULL, heap := [], freed := [4096] }
      = .error (.undefined .wildPointer) := rfl
  refine ⟨rfl, h, rfl, ?_⟩
  rintro ⟨report, hr⟩
  rw [h] at hr
  cases hr

/-- C17 (amended).  `FreeTemporary` does not check its handle.  For every
well-formed arena and every handle that does not denote a block of the live list,
it reports no error: its first statement reads `h->prev` through a pointer that is
null or points to no live block, which is undefined behaviour.  Its effect is
defined only for handles of live blocks. -/
theorem C17_invalid_release_unchecked (s : Arena) (p : Ptr) (hwf : WF s)
    (hp : headerOf p ∉ liveList s) :
    (FreeTemporary p s = .error (.undefined .nullDeref) ∨
      FreeTemporary p s = .error (.undefined .wildPointer)) ∧
    (∀ report, FreeTemporary p s ≠ .error (.aborted report)) ∧
    (∀ s2, FreeTemporary p s ≠ .ok s2) := by
  have hnone : look (p - sizeofAllocTempHeader) s.heap = none := hwf.look_none hp
  have h : FreeTemporary p s = .error (.undefined .nullDeref) ∨
      FreeTemporary p s = .error (.undefined .wildPointer) := by
    by_cases h0 : p - sizeofAllocTempHeader = NULL
    · left
      simp [FreeTemporary, Arena.loadPrev, Arena.deref, h0, Except.map, bind, Except.bind]
    · right
      simp [FreeTemporary, Arena.loadPrev, Arena.deref, h0, hnone, Except.map, bind,
        Except.bind]
  refine ⟨h, ?_, ?_⟩
  · intro report hr
    rcases h with h | h <;> · rw [h] at hr; cases hr
  · intro s2 hr
    rcases h with h | h <;> · rw [h] at hr; cases hr

theorem C17_invalid_release_unchecked_witness :
    (FreeTemporary 4112 { Head := NULL, heap := [], freed := [4096] }
        = .error (.undefined .nullDeref) ∨
      FreeTemporary 4112 { Head := NULL, heap := [], freed := [4096] }
        = .error (.undefined .wildPointer)) ∧
    (∀ report, FreeTemporary 4112 { Head := NULL, heap := [], freed := [4096] }
      ≠ .error (.aborted report)) ∧
    (∀ s2, FreeTemporary 4112 { Head := NULL, heap := [], freed := [4096] } ≠ .ok s2) :=
  C17_invalid_release_unchecked { Head := NULL, heap := [], freed := [4096] } 4112
    (by decide) (by decide)

/-! ## Bulk release, step by step -/

end SolveSpace
